import Mathlib

/-!
# Verification of the VSA-Compression core (`src/compression.py`)

Shallow embedding of the Voronoi-cell image-compression algorithm:

* `Cell` — a graph node carrying an aggregate colour, position and pixel weight
  (`class Cell`).  Python object identity is modelled by the `cid` field;
  fresh cells receive fresh ids from a `nextId` counter threaded through the
  state.
* `St` — the process-global mutable state: `Cell.edge_set` (a
  `sortedcontainers.SortedSet` keyed by
  `sum(cell.weight for cell in cells) * Cell.compare_colours(*cells)`),
  every cell's `_neighbours` set (an association list keyed by the cell),
  the set of live cells, and the id counter.
  The `SortedSet` is modelled as a list kept sorted by the key, with ties kept
  in insertion order (the behaviour of `SortedKeyList.add`, which uses
  `bisect_right`); since the key `w * sqrt(d)` is a monotone image of
  `w^2 * d`, the list is ordered by the rational quantity `edgeKeySq`
  (the square of the real key), which induces exactly the same order.
* Exceptions (`KeyError` from `set.remove` / `SortedSet.remove`,
  `IndexError` from `edge_set[0]`) are modelled with `Except PyErr`.

Rational numbers stand in for Python floats (exact arithmetic; the source
works on small integer-valued data where float rounding does not occur).
-/

attribute [local semireducible] Rat.add Rat.mul Rat.sub Rat.inv

/-- Python exception kinds relevant to the embedded code. -/
inductive PyErr where
  | keyError
  | valueError
  | indexError
deriving DecidableEq, Repr

/-- A graph node (`class Cell`): aggregate colour vector, centroid position,
pixel weight.  `cid` models Python object identity (fresh ids are handed out
by the state's `nextId` counter). -/
structure Cell where
  cid : ℕ
  colour : List ℚ
  position : ℚ × ℚ
  weight : ℕ
deriving DecidableEq, Repr

/-- Squared Euclidean norm of the componentwise difference of two vectors
(`np.linalg.norm(first_cell.colour - second_cell.colour)` squared). -/
def sqNormDiff (xs ys : List ℚ) : ℚ :=
  ((xs.zip ys).map (fun p => (p.1 - p.2) ^ 2)).sum

/-- `Cell.compare_colours`: Euclidean distance between two cells' colours. -/
noncomputable def compareColours (a b : Cell) : ℝ :=
  Real.sqrt ((sqNormDiff a.colour b.colour : ℚ) : ℝ)

/-- The `SortedSet` key of an edge:
`sum([cell.weight for cell in cells]) * Cell.compare_colours(*cells)`. -/
noncomputable def edgeScore (e : Cell × Cell) : ℝ :=
  ((e.1.weight + e.2.weight : ℕ) : ℝ) * compareColours e.1 e.2

/-- Square of `edgeScore`, as an exact rational.  Since `edgeScore` is
nonnegative, comparing `edgeKeySq` is equivalent to comparing `edgeScore`;
the sorted edge list is ordered by this decidable key. -/
def edgeKeySq (e : Cell × Cell) : ℚ :=
  ((e.1.weight + e.2.weight : ℕ) : ℚ) ^ 2 * sqNormDiff e.1.colour e.2.colour

/-- The unordered pair `frozenset([first_cell, second_cell])`, represented by
the endpoint with the smaller id first. -/
def mkE (a b : Cell) : Cell × Cell :=
  if a.cid ≤ b.cid then (a, b) else (b, a)

/-- Insertion into the sorted edge list at the `bisect_right` position:
after every element whose key is `≤` the new key (`SortedKeyList.add`). -/
def insortR (e : Cell × Cell) : List (Cell × Cell) → List (Cell × Cell)
  | [] => [e]
  | f :: rest => if edgeKeySq e < edgeKeySq f then e :: f :: rest else f :: insortR e rest

/-- Add an element to a Python `set` (no-op when present; insertion order
otherwise). -/
def addIfAbsent (x : Cell) (l : List Cell) : List Cell :=
  if x ∈ l then l else l ++ [x]

/-- `{*first, *second}`: union of two Python sets, first set's elements
first. -/
def unionL (l₁ l₂ : List Cell) : List Cell :=
  l₁ ++ l₂.filter (fun x => x ∉ l₁)

/-- Association list holding every cell's `_neighbours` set, keyed by the
cell (Python: each object owns its `_neighbours`). -/
abbrev NbrMap := List (Cell × List Cell)

/-- Look up a cell's `_neighbours` (empty for a cell with no entry). -/
def lookupNb : NbrMap → Cell → List Cell
  | [], _ => []
  | (k, v) :: rest, c => if k = c then v else lookupNb rest c

/-- Set a cell's `_neighbours` (replaces the entry, appends if absent). -/
def setNb : NbrMap → Cell → List Cell → NbrMap
  | [], c, v => [(c, v)]
  | (k, w) :: rest, c, v => if k = c then (c, v) :: rest else (k, w) :: setNb rest c v

/-- The process-global mutable state of `compression.py`. -/
structure St where
  /-- `Cell.edge_set`, ordered as the `SortedSet` orders it. -/
  edgeList : List (Cell × Cell)
  /-- every cell's `_neighbours`. -/
  nbrA : NbrMap
  /-- the live cells of the graph: created and not yet merged away.
  Modelled from the spec: the code keeps no registry (graph membership is
  implicit in the object graph); the spec's CellGraph owns the live cells,
  a cell being destroyed exactly when it is merged away. -/
  cells : List Cell
  /-- id supply for fresh cells (object identity). -/
  nextId : ℕ
deriving DecidableEq, Repr

/-- The state at interpreter start: empty `Cell.edge_set`, no cells. -/
def emptySt : St := ⟨[], [], [], 0⟩

/-- Neighbour lookup on a state. -/
def St.nb (s : St) (c : Cell) : List Cell := lookupNb s.nbrA c

/-- `Cell.add_edge`: insert the frozenset into the `SortedSet` (no-op when
already present) and record the symmetric adjacency. -/
def addEdge (a b : Cell) (s : St) : St :=
  { s with
    edgeList := if mkE a b ∈ s.edgeList then s.edgeList else insortR (mkE a b) s.edgeList
    nbrA :=
      let m₁ := setNb s.nbrA a (addIfAbsent b (lookupNb s.nbrA a))
      setNb m₁ b (addIfAbsent a (lookupNb m₁ b)) }

/-- `Cell.remove_edge`: `SortedSet.remove` raises `KeyError` when the edge is
absent (before any mutation); then each endpoint's `_neighbours.remove`.
The inner `KeyError` branch (edge present but adjacency asymmetric) never
fires on states satisfying the graph invariant. -/
def removeEdgeE (a b : Cell) (s : St) : Except PyErr St :=
  if mkE a b ∈ s.edgeList then
    if b ∈ lookupNb s.nbrA a ∧ a ∈ lookupNb s.nbrA b then
      .ok { s with
            edgeList := s.edgeList.erase (mkE a b)
            nbrA :=
              let m₁ := setNb s.nbrA a ((lookupNb s.nbrA a).erase b)
              setNb m₁ b ((lookupNb m₁ b).erase a) }
    else .error .keyError
  else .error .keyError

/-- The loop of `Cell.remove_cell` over the neighbour snapshot. -/
def removeCellGo (a : Cell) : List Cell → St → Except PyErr St
  | [], s => .ok s
  | x :: rest, s =>
    match removeEdgeE a x s with
    | .ok t => removeCellGo a rest t
    | .error e => .error e

/-- `Cell.remove_cell`: remove every edge incident to `cell`, iterating over a
snapshot `list(cell._neighbours)`. -/
def removeCellE (a : Cell) (s : St) : Except PyErr St :=
  removeCellGo a (lookupNb s.nbrA a) s

/-- The state produced by a successful `Cell.remove_edge`. -/
def removeEdgeSt (a b : Cell) (s : St) : St :=
  { s with
    edgeList := s.edgeList.erase (mkE a b)
    nbrA :=
      let m₁ := setNb s.nbrA a ((lookupNb s.nbrA a).erase b)
      setNb m₁ b ((lookupNb m₁ b).erase a) }

/-- Modelled from the spec: `weighted_vector_average` from `utils` (file
missing from the sources): `(a.v*a.weight + b.v*b.weight) / (a.weight+b.weight)`
componentwise. -/
def wavg (u v : List ℚ) (wa wb : ℕ) : List ℚ :=
  (u.zip v).map (fun p => (p.1 * wa + p.2 * wb) / ((wa : ℚ) + wb))

/-- Modelled from the spec: `weighted_vector_average` on 2-d position
vectors. -/
def wavgP (u v : ℚ × ℚ) (wa wb : ℕ) : ℚ × ℚ :=
  ((u.1 * wa + v.1 * wb) / ((wa : ℚ) + wb), (u.2 * wa + v.2 * wb) / ((wa : ℚ) + wb))

/-- `Cell.__init__`: fresh object, `_neighbours` starts empty, then
`Cell.add_edge(self, cell)` for every cell of the passed neighbour set.
The new cell also joins the live-cell set. -/
def mkNewCell (colour : List ℚ) (pos : ℚ × ℚ) (w : ℕ) (nbl : List Cell) (s : St) :
    Cell × St :=
  let c : Cell := ⟨s.nextId, colour, pos, w⟩
  let s₀ : St := { s with cells := s.cells ++ [c], nextId := s.nextId + 1 }
  (c, nbl.foldl (fun t x => addEdge c x t) s₀)

/-- `Cell.merge_cells`.  The `try`/`except ValueError` around
`Cell.remove_edge` catches only `ValueError`; the `KeyError` that
`SortedSet.remove` actually raises on a missing edge propagates.  The merged
cells leave the live set ("remove `a` and `b` from the graph"). -/
def mergeCells (a b : Cell) (s : St) : Except PyErr (Cell × St) :=
  let s₁res : Except PyErr St :=
    match removeEdgeE a b s with
    | .ok t => .ok t
    | .error .valueError => .ok s
    | .error e => .error e
  match s₁res with
  | .error e => .error e
  | .ok s₁ =>
    let colour := wavg a.colour b.colour a.weight b.weight
    let position := wavgP a.position b.position a.weight b.weight
    let weight := a.weight + b.weight
    let nbl := unionL (lookupNb s₁.nbrA a) (lookupNb s₁.nbrA b)
    match removeCellE a s₁ with
    | .error e => .error e
    | .ok s₂ =>
      match removeCellE b s₂ with
      | .error e => .error e
      | .ok s₃ =>
        let s₄ : St := { s₃ with cells := (s₃.cells.erase a).erase b }
        .ok (mkNewCell colour position weight nbl s₄)

/-- The cell returned by `Cell.merge_cells(a, b)` on state `s`. -/
def mergedCell (a b : Cell) (s : St) : Cell :=
  ⟨s.nextId, wavg a.colour b.colour a.weight b.weight,
    wavgP a.position b.position a.weight b.weight, a.weight + b.weight⟩

/-- `Cell.least_difference_edge`: `Cell.edge_set[0]`. -/
def leastDifferenceEdge (s : St) : Option (Cell × Cell) := s.edgeList.head?

/-- One iteration of the contraction loop:
`Cell.merge_cells(*Cell.least_difference_edge())`.  `edge_set[0]` on an empty
`SortedSet` raises `IndexError`. -/
def mergeStepE (s : St) : Except PyErr St :=
  match s.edgeList with
  | [] => .error .indexError
  | e :: _ =>
    match mergeCells e.1 e.2 s with
    | .ok r => .ok r.2
    | .error err => .error err

/-- The contraction loop `while len(Cell.edge_set) > n_edges: ...`, with a
fuel bound on the number of iterations; `.ok none` means the fuel ran out
with the loop still running. -/
def contractLoop (tgt : ℕ) : ℕ → St → Except PyErr (Option St)
  | 0, s => if tgt < s.edgeList.length then .ok none else .ok (some s)
  | fuel + 1, s =>
    if tgt < s.edgeList.length then
      match mergeStepE s with
      | .ok s' => contractLoop tgt fuel s'
      | .error e => .error e
    else .ok (some s)

/-- The target edge count of `compress`: `n_edges = original_n_edges // 2`. -/
def contractTarget (n : ℕ) : ℕ := n / 2

/-! ## Initial grid (`image_cell_grid`) -/

/-- Row-major enumeration of the pixel coordinates of an `h × w` image. -/
def allPairs (h w : ℕ) : List (ℕ × ℕ) :=
  (List.range h).flatMap (fun i => (List.range w).map (fun j => (i, j)))

/-- The grid cell of pixel `(i, j)`: `Cell(colour=image_data[i, j],
position=np.array([i, j]))`, weight defaulting to 1; its id continues the
current id supply in row-major order. -/
def gridCellAt (base w : ℕ) (img : ℕ → ℕ → List ℚ) (i j : ℕ) : Cell :=
  ⟨base + i * w + j, img i j, ((i : ℚ), (j : ℚ)), 1⟩

/-- Modelled from the spec: `grid_neighbours` from `utils` (file missing from
the sources): the in-bounds 4-connected (up/down/left/right) grid
neighbours. -/
def gridNeighbours (base h w : ℕ) (img : ℕ → ℕ → List ℚ) (i j : ℕ) : List Cell :=
  (((if i = 0 then [] else [(i - 1, j)]) ++
    (if i + 1 < h then [(i + 1, j)] else []) ++
    (if j = 0 then [] else [(i, j - 1)]) ++
    (if j + 1 < w then [(i, j + 1)] else [])).map
    (fun p => gridCellAt base w img p.1 p.2))

/-- `image_cell_grid`: create one weight-1 cell per pixel, then add the edge
to every grid neighbour of every cell (each edge is attempted from both
endpoints; the `SortedSet` and the `_neighbours` sets deduplicate).  The
cells and edges are added to the *current* global state (`Cell.edge_set` is a
class attribute). -/
def imageCellGrid (h w : ℕ) (img : ℕ → ℕ → List ℚ) (s : St) : St :=
  let base := s.nextId
  let s₀ : St := { s with
    cells := s.cells ++ (allPairs h w).map (fun p => gridCellAt base w img p.1 p.2)
    nextId := s.nextId + h * w }
  (allPairs h w).foldl
    (fun t p =>
      (gridNeighbours base h w img p.1 p.2).foldl
        (fun u n => addEdge (gridCellAt base w img p.1 p.2) n u) t)
    s₀

/-- Sum of the weights of the live cells (`Σ cell.weight`). -/
def weightSum (s : St) : ℕ := (s.cells.map Cell.weight).sum

/-- The vertex set handed to the rasterizer (`compress` lines 54–61): the
endpoints of the surviving edges, gathered into a set. -/
def gatherCells (l : List (Cell × Cell)) : List Cell :=
  l.foldl (fun acc e => addIfAbsent e.2 (addIfAbsent e.1 acc)) []

/-! ## Rasterizer (`voronoi_fill`) -/

/-- Truncation toward zero, Python `int(...)` on a rational value. -/
def truncQ (v : ℚ) : ℤ :=
  if v < 0 then -((-v).num / ((-v).den : ℤ)) else v.num / (v.den : ℤ)

/-- `neighborhood_size = 10`. -/
def nbhSize : ℚ := 10

/-- `int(ceil(n / (neighborhood_size/2)) - 1)`: the number of neighbourhood
bins along one axis (exact: `⌈n/5⌉ - 1`). -/
def nbhBins (n : ℕ) : ℤ := (((n + 4) / 5 : ℕ) : ℤ) - 1

/-- Modelled from the spec: `bound_to_range` from `utils` (file missing from
the sources): clamp a value into `[minimum, maximum]`. -/
def boundToRange (v mn mx : ℤ) : ℤ := max mn (min v mx)

/-- Modelled from the spec: `inbounds` from `utils` (file missing from the
sources): `0 ≤ i < h` and `0 ≤ j < w`. -/
def inboundsB (i j h w : ℤ) : Bool :=
  decide (0 ≤ i) && decide (i < h) && decide (0 ≤ j) && decide (j < w)

/-- The home bin index of a coordinate:
`bound_to_range(int((x - neighborhood_size/4) / (neighborhood_size/2)), 0, bins)`. -/
def homeBin (x : ℚ) (mx : ℤ) : ℤ :=
  boundToRange (truncQ ((x - nbhSize / 4) / (nbhSize / 2))) 0 mx

/-- Python `range(a, b, 2)` over integers. -/
def rangeStep2 (a b : ℤ) : List ℤ :=
  (List.range ((b - a + 1) / 2).toNat).map (fun k => a + 2 * k)

/-- `nearby_neighborhood_indices(row, col, degree)`: the home bin for degree
0; otherwise every other bin of the Chebyshev ring at distance `degree`
(`top`, `bottom`, `left`, `right` runs with step 2), filtered by
`inbounds`. -/
def nearbyIdx (H W : ℤ) (row col : ℚ) (degree : ℕ) : List (ℤ × ℤ) :=
  let nr := homeBin row H
  let nc := homeBin col W
  if degree = 0 then [(nr, nc)]
  else
    let d : ℤ := degree
    let top := (rangeStep2 (nc - d) (nc + d)).map (fun j => (nr - d, j))
    let bottom := (rangeStep2 (nc - d + 1) (nc + d + 1)).map (fun j => (nr + d, j))
    let left := (rangeStep2 (nr - d + 1) (nr + d + 1)).map (fun i => (i, nc - d))
    let right := (rangeStep2 (nr - d) (nr + d)).map (fun i => (i, nc + d))
    (top ++ bottom ++ left ++ right).filter (fun p => inboundsB p.1 p.2 H W)

/-- A bin assignment: the contents of `cell_neighborhoods[i][j]`. -/
abbrev Bins := ℤ × ℤ → List Cell

/-- Add a cell to one bin (`set.add`). -/
def binInsert (bins : Bins) (p : ℤ × ℤ) (c : Cell) : Bins :=
  fun q => if q = p then (if c ∈ bins p then bins p else bins p ++ [c]) else bins q

/-- Register one cell into its degree-0 and degree-1 neighbourhoods
(`for neighborhood in nearby_neighborhoods(*cell.position, degree=0) +
nearby_neighborhoods(*cell.position, degree=1)`). -/
def registerCell (H W : ℤ) (bins : Bins) (c : Cell) : Bins :=
  ((nearbyIdx H W c.position.1 c.position.2 0) ++
   (nearbyIdx H W c.position.1 c.position.2 1)).foldl
    (fun b p => binInsert b p c) bins

/-- Populate the cell neighbourhoods from the cell list. -/
def populateBins (cells : List Cell) (H W : ℤ) : Bins :=
  cells.foldl (registerCell H W) (fun _ => [])

/-- Squared Euclidean distance from a cell position to a query point
(`np.linalg.norm(cell.position - np.array([row, col]))` squared). -/
def sqDistP (p : ℚ × ℚ) (rc : ℚ × ℚ) : ℚ :=
  (p.1 - rc.1) ^ 2 + (p.2 - rc.2) ^ 2

/-- Euclidean distance from a cell position to a query point. -/
noncomputable def euclDistP (p : ℚ × ℚ) (rc : ℚ × ℚ) : ℝ :=
  Real.sqrt ((sqDistP p rc : ℚ) : ℝ)

/-- The running minimum of Python `min(l, key=...)`: replace the current best
only on a strictly smaller key, so the first element attaining the minimum is
kept. -/
def argminFold (rc : ℚ × ℚ) : Cell → List Cell → Cell
  | best, [] => best
  | best, x :: rest =>
    argminFold rc (if sqDistP x.position rc < sqDistP best.position rc then x else best) rest

/-- Python `min(l, key=...)`: the first element attaining the minimal key
(`min` on an empty sequence raises, modelled as `none`).  Minimising the
Euclidean distance and minimising its square select the same element, so the
comparison uses the exact rational squares. -/
def argminD (rc : ℚ × ℚ) : List Cell → Option Cell
  | [] => none
  | c :: rest => some (argminFold rc c rest)

/-- The candidate bins examined at a given degree
(`nearby_neighborhoods(row, col, degree)`). -/
def candAt (bins : Bins) (H W : ℤ) (row col : ℚ) (degree : ℕ) : List (List Cell) :=
  (nearbyIdx H W row col degree).map bins

/-- Python `any(neighborhood)`: a list of sets is truthy when at least one
member set is non-empty. -/
def anyNonEmpty (n : List (List Cell)) : Bool :=
  n.any (fun l => !l.isEmpty)

/-- The ring-expansion search of `closest_cell`: start at degree 1, and while
no examined bin is non-empty (`while not any(neighborhood)`) move to the next
degree.  `fuel` bounds the number of degrees tried; `none` models the loop
still running (the source has no other exit). -/
def closestSearch (bins : Bins) (H W : ℤ) (row col : ℚ) : ℕ → ℕ → Option (List (List Cell))
  | 0, _ => none
  | fuel + 1, d =>
    if anyNonEmpty (candAt bins H W row col d) then some (candAt bins H W row col d)
    else closestSearch bins H W row col fuel (d + 1)

/-- `closest_cell(row, col)`: ring-expansion search from degree 1, then
`min(chain(*neighborhood), key=distance)`. -/
def closestCell (bins : Bins) (H W : ℤ) (row col : ℚ) (fuel : ℕ) : Option Cell :=
  (closestSearch bins H W row col fuel 1).bind (fun n => argminD (row, col) n.flatten)

/-- Sequence a list of optional results; the whole list is produced only if
every entry is (the pixel loop of `voronoi_fill` never finishes if one
`closest_cell` call never finds a candidate). -/
def seqO {α : Type} (f : ℕ → Option α) : List ℕ → Option (List α)
  | [] => some []
  | x :: rest =>
    match f x, seqO f rest with
    | some y, some ys => some (y :: ys)
    | _, _ => none

/-- One output row of `voronoi_fill`: `filled[i, j] = closest_cell(i, j).colour`. -/
def fillRow (bins : Bins) (H W : ℤ) (i w fuel : ℕ) : Option (List (List ℚ)) :=
  seqO (fun j => (closestCell bins H W i j fuel).map Cell.colour) (List.range w)

/-- `voronoi_fill`: build the bins, then assign every pixel the colour of its
closest cell.  `none` models a run in which some pixel's ring-expansion
search never found a candidate within the fuel bound. -/
def voronoiFill (cells : List Cell) (h w fuel : ℕ) : Option (List (List (List ℚ))) :=
  let H := nbhBins h
  let W := nbhBins w
  let bins := populateBins cells H W
  seqO (fun i => fillRow bins H W i w fuel) (List.range h)

/-! ## Concrete test fixtures -/

/-- The uniform 2×2 single-channel test image: value 200 everywhere. -/
def uniImg : ℕ → ℕ → List ℚ := fun _ _ => [200]

/-- The state after `image_cell_grid` on the 2×2 uniform image, from a fresh
interpreter. -/
def gridSt : St := imageCellGrid 2 2 uniImg emptySt

/-- The state after `image_cell_grid` on a 1×2 uniform image, from a fresh
interpreter (two cells, one edge). -/
def lineSt : St := imageCellGrid 1 2 uniImg emptySt

/-- The two cells of `lineSt`. -/
def gA : Cell := gridCellAt 0 2 uniImg 0 0

/-- The two cells of `lineSt`. -/
def gB : Cell := gridCellAt 0 2 uniImg 0 1

/-- The contraction phase of `compress` on a state: target
`original_n_edges // 2`, fuel `original_n_edges`. -/
def runContract (s : St) : Except PyErr (Option St) :=
  contractLoop (contractTarget s.edgeList.length) s.edgeList.length s

/-- Project the state out of a finished contraction run. -/
def stOf : Except PyErr (Option St) → St
  | .ok (some t) => t
  | _ => emptySt

/-- The global state left behind by the first `compress` run on the 2×2
uniform image (the contraction phase; gathering and rasterizing do not
mutate the graph). -/
def afterRun1 : St := stOf (runContract gridSt)

/-- A light cell of weight 1 (colour distance 10 to `cB`). -/
def cA : Cell := ⟨0, [0], (0, 0), 1⟩

/-- A cell of weight 1 adjacent to `cA`. -/
def cB : Cell := ⟨1, [10], (0, 1), 1⟩

/-- A heavy cell of weight 5 (colour distance 3 to `cD`). -/
def cC : Cell := ⟨2, [0], (1, 0), 5⟩

/-- A heavy cell of weight 5 adjacent to `cC`. -/
def cD : Cell := ⟨3, [3], (1, 1), 5⟩

/-- A state with two edges: {cA, cB} (weight sum 2, colour distance 10,
key 20) and {cC, cD} (weight sum 10, colour distance 3, key 30). -/
def scoreSt : St :=
  addEdge cC cD (addEdge cA cB
    { edgeList := [], nbrA := [], cells := [cA, cB, cC, cD], nextId := 4 })

/-- A cell registered in the spatial index for the rasterizer witnesses. -/
def wCell : Cell := ⟨7, [5], (6, 6), 1⟩

/-- A bin assignment holding `wCell` in bin (1, 0), the only in-bounds
degree-1 ring bin of the query point (7, 7) on a 3×3 bin grid. -/
def wBins : Bins := fun p => if p = (1, 0) then [wCell] else []

/-- The edge surviving the first contraction run on the 2×2 uniform image:
its endpoints are the two merged column cells. -/
def survEdge : Cell × Cell :=
  (⟨4, [200], ((1 : ℚ)/2, 0), 2⟩, ⟨5, [200], ((1 : ℚ)/2, 1), 2⟩)

/-! ## Laws of the container helpers -/

theorem lookupNb_cons_self (k : Cell) (w : List Cell) (rest : NbrMap) :
    lookupNb ((k, w) :: rest) k = w := by
  simp [lookupNb]

theorem lookupNb_cons_ne (k : Cell) (w : List Cell) (rest : NbrMap) (c : Cell)
    (h : k ≠ c) : lookupNb ((k, w) :: rest) c = lookupNb rest c := by
  simp [lookupNb, h]

theorem lookupNb_setNb (m : NbrMap) (c : Cell) (v : List Cell) (d : Cell) :
    lookupNb (setNb m c v) d = if d = c then v else lookupNb m d := by
  induction m with
  | nil =>
    by_cases h : d = c
    · subst h
      simp [setNb, lookupNb]
    · have h' : c ≠ d := fun hh => h hh.symm
      simp [setNb, lookupNb, h, h']
  | cons p rest ih =>
    obtain ⟨k, w⟩ := p
    by_cases hk : k = c
    · subst hk
      rw [show setNb ((k, w) :: rest) k v = (k, v) :: rest from if_pos rfl]
      by_cases hd : d = k
      · subst hd
        rw [lookupNb_cons_self, lookupNb_cons_self, if_pos rfl]
      · have hd' : k ≠ d := fun hh => hd hh.symm
        rw [lookupNb_cons_ne _ _ _ _ hd', lookupNb_cons_ne _ _ _ _ hd', if_neg hd]
    · rw [show setNb ((k, w) :: rest) c v = (k, w) :: setNb rest c v from if_neg hk]
      by_cases hd : k = d
      · subst hd
        have : ¬ k = c := hk
        rw [lookupNb_cons_self, lookupNb_cons_self, if_neg (fun hh => hk hh)]
      · rw [lookupNb_cons_ne _ _ _ _ hd, lookupNb_cons_ne _ _ _ _ hd, ih]

theorem lookupNb_entry_mem (m : NbrMap) (c : Cell) (h : lookupNb m c ≠ []) :
    (c, lookupNb m c) ∈ m := by
  induction m with
  | nil => exact absurd rfl h
  | cons p rest ih =>
    obtain ⟨k, w⟩ := p
    by_cases hk : k = c
    · subst hk
      rw [lookupNb_cons_self]
      exact List.mem_cons_self _ _
    · rw [lookupNb_cons_ne _ _ _ _ hk] at h ⊢
      exact List.mem_cons_of_mem _ (ih h)

theorem lookupNb_of_mem (m : NbrMap) (c : Cell) (v : List Cell)
    (hnd : (m.map Prod.fst).Nodup) (h : (c, v) ∈ m) : lookupNb m c = v := by
  induction m with
  | nil => simp at h
  | cons p rest ih =>
    obtain ⟨k, w⟩ := p
    rw [List.map_cons, List.nodup_cons] at hnd
    rcases List.mem_cons.mp h with heq | hmem
    · injection heq with h1 h2
      subst h1
      subst h2
      exact lookupNb_cons_self _ _ _
    · have hcmem : c ∈ rest.map Prod.fst := List.mem_map_of_mem Prod.fst hmem
      have hk : k ≠ c := fun hkc => hnd.1 (by rw [hkc]; exact hcmem)
      rw [lookupNb_cons_ne _ _ _ _ hk]
      exact ih hnd.2 hmem

theorem setNb_keys (m : NbrMap) (c : Cell) (v : List Cell) :
    (setNb m c v).map Prod.fst =
      if c ∈ m.map Prod.fst then m.map Prod.fst else m.map Prod.fst ++ [c] := by
  induction m with
  | nil => simp [setNb]
  | cons p rest ih =>
    obtain ⟨k, w⟩ := p
    by_cases hk : k = c
    · subst hk
      rw [show setNb ((k, w) :: rest) k v = (k, v) :: rest from if_pos rfl]
      rw [if_pos (by simp)]
      simp
    · have hck : ¬ c = k := fun hh => hk hh.symm
      rw [show setNb ((k, w) :: rest) c v = (k, w) :: setNb rest c v from if_neg hk]
      by_cases hc : c ∈ rest.map Prod.fst
      · rw [if_pos (by simp [hc])]
        simp only [List.map_cons, ih, if_pos hc]
      · rw [if_neg (by simp [hc, hck])]
        simp only [List.map_cons, ih, if_neg hc, List.cons_append]

theorem setNb_keys_nodup (m : NbrMap) (c : Cell) (v : List Cell)
    (hnd : (m.map Prod.fst).Nodup) : ((setNb m c v).map Prod.fst).Nodup := by
  rw [setNb_keys]
  by_cases hc : c ∈ m.map Prod.fst
  · simpa [hc] using hnd
  · rw [if_neg hc]
    refine List.Nodup.append hnd (List.nodup_singleton c) ?_
    intro a ha hax
    rw [List.mem_singleton] at hax
    subst hax
    exact hc ha

theorem mem_setNb_elim (m : NbrMap) (c : Cell) (v : List Cell) (p : Cell × List Cell)
    (hp : p ∈ setNb m c v) : p = (c, v) ∨ p ∈ m := by
  induction m with
  | nil =>
    simp [setNb] at hp
    exact Or.inl hp
  | cons q rest ih =>
    obtain ⟨k, w⟩ := q
    by_cases hk : k = c
    · subst hk
      rw [show setNb ((k, w) :: rest) k v = (k, v) :: rest from if_pos rfl] at hp
      rcases List.mem_cons.mp hp with heq | hmem
      · exact Or.inl heq
      · exact Or.inr (List.mem_cons_of_mem _ hmem)
    · rw [show setNb ((k, w) :: rest) c v = (k, w) :: setNb rest c v from if_neg hk] at hp
      rcases List.mem_cons.mp hp with heq | hmem
      · exact Or.inr (heq ▸ List.mem_cons_self _ _)
      · rcases ih hmem with h | h
        · exact Or.inl h
        · exact Or.inr (List.mem_cons_of_mem _ h)

theorem mem_addIfAbsent (x : Cell) (l : List Cell) (y : Cell) :
    y ∈ addIfAbsent x l ↔ y ∈ l ∨ y = x := by
  unfold addIfAbsent
  by_cases h : x ∈ l
  · rw [if_pos h]
    constructor
    · exact Or.inl
    · rintro (hy | rfl)
      · exact hy
      · exact h
  · rw [if_neg h]
    simp

theorem addIfAbsent_nodup (x : Cell) (l : List Cell) (h : l.Nodup) :
    (addIfAbsent x l).Nodup := by
  unfold addIfAbsent
  by_cases hx : x ∈ l
  · simpa [hx] using h
  · rw [if_neg hx]
    refine List.Nodup.append h (List.nodup_singleton x) ?_
    intro a ha hax
    rw [List.mem_singleton] at hax
    subst hax
    exact hx ha

theorem addIfAbsent_of_not_mem (x : Cell) (l : List Cell) (h : x ∉ l) :
    addIfAbsent x l = l ++ [x] := by
  simp [addIfAbsent, h]

theorem mem_unionL (l₁ l₂ : List Cell) (y : Cell) :
    y ∈ unionL l₁ l₂ ↔ y ∈ l₁ ∨ y ∈ l₂ := by
  simp only [unionL, List.mem_append, List.mem_filter, decide_not]
  constructor
  · rintro (h | ⟨h, -⟩)
    · exact Or.inl h
    · exact Or.inr h
  · rintro (h | h)
    · exact Or.inl h
    · by_cases h₁ : y ∈ l₁
      · exact Or.inl h₁
      · exact Or.inr ⟨h, by simpa using h₁⟩

theorem unionL_nodup (l₁ l₂ : List Cell) (h₁ : l₁.Nodup) (h₂ : l₂.Nodup) :
    (unionL l₁ l₂).Nodup := by
  refine List.Nodup.append h₁ (h₂.filter _) ?_
  intro y hy₁ hy₂
  rw [List.mem_filter] at hy₂
  exact absurd hy₁ (by simpa using hy₂.2)

theorem unionL_length (l₁ l₂ : List Cell) :
    (unionL l₁ l₂).length ≤ l₁.length + l₂.length := by
  simp only [unionL, List.length_append]
  exact Nat.add_le_add_left (List.length_filter_le _ _) _

theorem insortR_perm (e : Cell × Cell) (l : List (Cell × Cell)) :
    List.Perm (insortR e l) (e :: l) := by
  induction l with
  | nil => exact List.Perm.refl _
  | cons f rest ih =>
    unfold insortR
    by_cases h : edgeKeySq e < edgeKeySq f
    · rw [if_pos h]
    · rw [if_neg h]
      exact (ih.cons f).trans (List.Perm.swap e f rest)

theorem mem_insortR (e : Cell × Cell) (l : List (Cell × Cell)) (f : Cell × Cell) :
    f ∈ insortR e l ↔ f = e ∨ f ∈ l := by
  rw [(insortR_perm e l).mem_iff]
  simp

theorem insortR_length (e : Cell × Cell) (l : List (Cell × Cell)) :
    (insortR e l).length = l.length + 1 := by
  rw [(insortR_perm e l).length_eq]
  simp

theorem insortR_nodup (e : Cell × Cell) (l : List (Cell × Cell)) (hl : l.Nodup)
    (he : e ∉ l) : (insortR e l).Nodup := by
  rw [(insortR_perm e l).nodup_iff]
  simp [hl, he]

theorem insortR_sorted (e : Cell × Cell) (l : List (Cell × Cell))
    (h : l.Pairwise (fun a b => edgeKeySq a ≤ edgeKeySq b)) :
    (insortR e l).Pairwise (fun a b => edgeKeySq a ≤ edgeKeySq b) := by
  induction l with
  | nil => simp [insortR]
  | cons f rest ih =>
    rw [List.pairwise_cons] at h
    unfold insortR
    by_cases hlt : edgeKeySq e < edgeKeySq f
    · rw [if_pos hlt]
      refine List.Pairwise.cons ?_ (List.Pairwise.cons h.1 h.2)
      intro g hg
      rcases List.mem_cons.mp hg with rfl | hg
      · exact le_of_lt hlt
      · exact le_of_lt (lt_of_lt_of_le hlt (h.1 g hg))
    · rw [if_neg hlt]
      refine List.Pairwise.cons ?_ (ih h.2)
      intro g hg
      rcases (mem_insortR e rest g).mp hg with rfl | hg
      · exact le_of_not_lt hlt
      · exact h.1 g hg

/-! ## mkE lemmas -/

theorem mkE_cases (a b : Cell) : mkE a b = (a, b) ∨ mkE a b = (b, a) := by
  unfold mkE
  by_cases h : a.cid ≤ b.cid
  · exact Or.inl (if_pos h)
  · exact Or.inr (if_neg h)

theorem mkE_fst_cid_le_snd (a b : Cell) : (mkE a b).1.cid ≤ (mkE a b).2.cid := by
  unfold mkE
  by_cases h : a.cid ≤ b.cid
  · rw [if_pos h]; exact h
  · rw [if_neg h]; exact le_of_lt (lt_of_not_le h)

theorem mkE_norm (a b : Cell) (h : a.cid ≠ b.cid) :
    (mkE a b).1.cid < (mkE a b).2.cid := by
  unfold mkE
  by_cases hle : a.cid ≤ b.cid
  · rw [if_pos hle]; exact lt_of_le_of_ne hle h
  · rw [if_neg hle]; exact lt_of_not_le hle

theorem mkE_eq_of_norm (e : Cell × Cell) (h : e.1.cid ≤ e.2.cid) :
    mkE e.1 e.2 = e := by
  unfold mkE
  rw [if_pos h]

theorem mkE_symm (a b : Cell) (h : a.cid ≠ b.cid) : mkE a b = mkE b a := by
  unfold mkE
  by_cases hle : a.cid ≤ b.cid
  · rw [if_pos hle, if_neg (fun hba => h (le_antisymm hle hba))]
  · rw [if_neg hle, if_pos (le_of_lt (lt_of_not_le hle))]

theorem mkE_endpoints (a b : Cell) :
    ((mkE a b).1 = a ∧ (mkE a b).2 = b) ∨ ((mkE a b).1 = b ∧ (mkE a b).2 = a) := by
  rcases mkE_cases a b with h | h <;> rw [h]
  · exact Or.inl ⟨rfl, rfl⟩
  · exact Or.inr ⟨rfl, rfl⟩

theorem mkE_snd_eq_iff (a b x : Cell) (ha : x ≠ a) (hb : x ≠ b) :
    mkE a x = mkE b x → a = b := by
  intro h
  rcases mkE_cases a x with h₁ | h₁ <;> rcases mkE_cases b x with h₂ | h₂ <;>
    rw [h₁, h₂] at h
  · exact congrArg Prod.fst h
  · exact absurd (congrArg Prod.fst h) (Ne.symm ha)
  · exact absurd (congrArg Prod.fst h) hb
  · exact congrArg Prod.snd h

theorem mkE_arg_eq (a x y : Cell) (hx : x ≠ a) (h : mkE a x = mkE a y) : x = y := by
  rcases mkE_cases a x with h₁ | h₁ <;> rcases mkE_cases a y with h₂ | h₂ <;>
    rw [h₁, h₂] at h
  · exact congrArg Prod.snd h
  · exact absurd (congrArg Prod.snd h) hx
  · exact absurd (congrArg Prod.fst h) hx
  · exact congrArg Prod.fst h

/-! ## The graph invariant -/

/-- The well-formedness invariant of the global state: the edge list is
sorted by the (squared) score with no duplicates and normalised endpoints,
the edge set and the `_neighbours` sets describe the same symmetric
adjacency, neighbour sets are duplicate-free, edges join live cells, the
live-cell list is duplicate-free, and every cell in sight has an id below
the id supply (object identities are unique and never recycled). -/
structure WF (s : St) : Prop where
  sorted : s.edgeList.Pairwise (fun e f => edgeKeySq e ≤ edgeKeySq f)
  norm : ∀ e ∈ s.edgeList, e.1.cid < e.2.cid
  nodupE : s.edgeList.Nodup
  nkeys : (s.nbrA.map Prod.fst).Nodup
  corrF : ∀ p ∈ s.nbrA, ∀ d ∈ p.2, mkE p.1 d ∈ s.edgeList
  corrB : ∀ e ∈ s.edgeList, e.2 ∈ lookupNb s.nbrA e.1 ∧ e.1 ∈ lookupNb s.nbrA e.2
  nodupN : ∀ p ∈ s.nbrA, p.2.Nodup
  cellsND : s.cells.Nodup
  edgeCells : ∀ e ∈ s.edgeList, e.1 ∈ s.cells ∧ e.2 ∈ s.cells
  freshC : ∀ c ∈ s.cells, c.cid < s.nextId
  freshE : ∀ e ∈ s.edgeList, e.1.cid < s.nextId ∧ e.2.cid < s.nextId
  freshN : ∀ p ∈ s.nbrA, p.1.cid < s.nextId ∧ ∀ d ∈ p.2, d.cid < s.nextId

theorem WF.nb_sub (h : WF s) (c d : Cell) (hd : d ∈ lookupNb s.nbrA c) :
    mkE c d ∈ s.edgeList := by
  have hne : lookupNb s.nbrA c ≠ [] := by
    intro hnil
    rw [hnil] at hd
    exact absurd hd (List.not_mem_nil d)
  exact h.corrF _ (lookupNb_entry_mem _ _ hne) d hd

/-- The two-way correspondence between `_neighbours` and `edge_set`. -/
theorem WF.corr (h : WF s) (c d : Cell) :
    d ∈ lookupNb s.nbrA c ↔ mkE c d ∈ s.edgeList := by
  constructor
  · exact h.nb_sub c d
  · intro he
    rcases mkE_endpoints c d with ⟨h1, h2⟩ | ⟨h1, h2⟩
    · have := (h.corrB _ he).1
      rw [h1, h2] at this
      exact this
    · have := (h.corrB _ he).2
      rw [h1, h2] at this
      exact this

theorem WF.nb_nodup (h : WF s) (c : Cell) : (lookupNb s.nbrA c).Nodup := by
  by_cases hne : lookupNb s.nbrA c = []
  · rw [hne]; exact List.nodup_nil
  · exact h.nodupN _ (lookupNb_entry_mem _ _ hne)

theorem WF.adj_cid_ne (h : WF s) (c d : Cell) (hd : d ∈ lookupNb s.nbrA c) :
    c.cid ≠ d.cid := by
  intro hcd
  have he := h.nb_sub c d hd
  have hn := h.norm _ he
  rcases mkE_endpoints c d with ⟨h1, h2⟩ | ⟨h1, h2⟩ <;>
    rw [h1, h2] at hn <;> omega

theorem WF.not_self_nb (h : WF s) (c : Cell) : c ∉ lookupNb s.nbrA c := by
  intro hc
  exact h.adj_cid_ne c c hc rfl

theorem WF.nb_cid_lt (h : WF s) (c d : Cell) (hd : d ∈ lookupNb s.nbrA c) :
    d.cid < s.nextId := by
  have hne : lookupNb s.nbrA c ≠ [] := by
    intro hnil
    rw [hnil] at hd
    exact absurd hd (List.not_mem_nil d)
  exact (h.freshN _ (lookupNb_entry_mem _ _ hne)).2 d hd

theorem WF.nb_fresh_nil (h : WF s) (c : Cell) (hc : s.nextId ≤ c.cid) :
    lookupNb s.nbrA c = [] := by
  by_cases hne : lookupNb s.nbrA c = []
  · exact hne
  · have hlt : c.cid < s.nextId := (h.freshN _ (lookupNb_entry_mem _ _ hne)).1
    omega

theorem WF.adj_ne (h : WF s) (a b : Cell) (hab : mkE a b ∈ s.edgeList) : a ≠ b := by
  intro heq
  have hn := h.norm _ hab
  rcases mkE_endpoints a b with ⟨h1, h2⟩ | ⟨h1, h2⟩ <;> rw [h1, h2] at hn <;>
    rw [heq] at hn <;> omega

theorem WF.edge_norm_eq (h : WF s) (e : Cell × Cell) (he : e ∈ s.edgeList) :
    mkE e.1 e.2 = e :=
  mkE_eq_of_norm e (le_of_lt (h.norm e he))

/-! ## Effects of addEdge -/

theorem addEdge_cells (a b : Cell) (s : St) : (addEdge a b s).cells = s.cells := rfl

theorem addEdge_nextId (a b : Cell) (s : St) : (addEdge a b s).nextId = s.nextId := rfl

theorem addEdge_edge_mem (a b : Cell) (s : St) (f : Cell × Cell) :
    f ∈ (addEdge a b s).edgeList ↔ f ∈ s.edgeList ∨ f = mkE a b := by
  show f ∈ (if mkE a b ∈ s.edgeList then s.edgeList else insortR (mkE a b) s.edgeList)
      ↔ _
  by_cases h : mkE a b ∈ s.edgeList
  · rw [if_pos h]
    constructor
    · exact Or.inl
    · rintro (hf | rfl)
      · exact hf
      · exact h
  · rw [if_neg h, mem_insortR]
    constructor
    · rintro (rfl | hf)
      · exact Or.inr rfl
      · exact Or.inl hf
    · rintro (hf | rfl)
      · exact Or.inr hf
      · exact Or.inl rfl

theorem addEdge_length (a b : Cell) (s : St) :
    (addEdge a b s).edgeList.length =
      if mkE a b ∈ s.edgeList then s.edgeList.length else s.edgeList.length + 1 := by
  show (if mkE a b ∈ s.edgeList then s.edgeList else insortR (mkE a b) s.edgeList).length = _
  by_cases h : mkE a b ∈ s.edgeList
  · rw [if_pos h, if_pos h]
  · rw [if_neg h, if_neg h, insortR_length]

theorem addEdge_nb_fst (a b : Cell) (s : St) (hab : a ≠ b) :
    lookupNb (addEdge a b s).nbrA a = addIfAbsent b (lookupNb s.nbrA a) := by
  show lookupNb (setNb (setNb s.nbrA a (addIfAbsent b (lookupNb s.nbrA a))) b _) a = _
  rw [lookupNb_setNb, if_neg hab, lookupNb_setNb, if_pos rfl]

theorem addEdge_nb_snd (a b : Cell) (s : St) (hab : a ≠ b) :
    lookupNb (addEdge a b s).nbrA b = addIfAbsent a (lookupNb s.nbrA b) := by
  show lookupNb (setNb (setNb s.nbrA a (addIfAbsent b (lookupNb s.nbrA a))) b
      (addIfAbsent a (lookupNb (setNb s.nbrA a (addIfAbsent b (lookupNb s.nbrA a))) b))) b = _
  rw [lookupNb_setNb, if_pos rfl, lookupNb_setNb, if_neg (fun h => hab h.symm)]

theorem addEdge_nb_other (a b x : Cell) (s : St) (hxa : x ≠ a) (hxb : x ≠ b) :
    lookupNb (addEdge a b s).nbrA x = lookupNb s.nbrA x := by
  show lookupNb (setNb (setNb s.nbrA a (addIfAbsent b (lookupNb s.nbrA a))) b _) x = _
  rw [lookupNb_setNb, if_neg hxb, lookupNb_setNb, if_neg hxa]

theorem addEdge_nb_superset (a b x y : Cell) (s : St) (hab : a ≠ b)
    (hy : y ∈ lookupNb s.nbrA x) : y ∈ lookupNb (addEdge a b s).nbrA x := by
  by_cases hxa : x = a
  · subst hxa
    rw [addEdge_nb_fst _ _ _ hab, mem_addIfAbsent]
    exact Or.inl hy
  · by_cases hxb : x = b
    · subst hxb
      rw [addEdge_nb_snd _ _ _ hab, mem_addIfAbsent]
      exact Or.inl hy
    · rw [addEdge_nb_other _ _ _ _ hxa hxb]
      exact hy

theorem WF_addEdge (s : St) (a b : Cell) (h : WF s)
    (hcid : a.cid ≠ b.cid)
    (ha : a ∈ s.cells) (hb : b ∈ s.cells)
    (hfa : a.cid < s.nextId) (hfb : b.cid < s.nextId) :
    WF (addEdge a b s) := by
  have hab : a ≠ b := fun heq => hcid (by rw [heq])
  have hedge : ∀ f, f ∈ (addEdge a b s).edgeList ↔ f ∈ s.edgeList ∨ f = mkE a b :=
    addEdge_edge_mem a b s
  refine ⟨?_, ?_, ?_, ?_, ?_, ?_, ?_, ?_, ?_, ?_, ?_, ?_⟩
  · -- sorted
    show (if mkE a b ∈ s.edgeList then s.edgeList else
        insortR (mkE a b) s.edgeList).Pairwise _
    by_cases hm : mkE a b ∈ s.edgeList
    · rw [if_pos hm]; exact h.sorted
    · rw [if_neg hm]; exact insortR_sorted _ _ h.sorted
  · -- norm
    intro e he
    rcases (hedge e).mp he with he | rfl
    · exact h.norm e he
    · exact mkE_norm a b hcid
  · -- nodupE
    show (if mkE a b ∈ s.edgeList then s.edgeList else
        insortR (mkE a b) s.edgeList).Nodup
    by_cases hm : mkE a b ∈ s.edgeList
    · rw [if_pos hm]; exact h.nodupE
    · rw [if_neg hm]; exact insortR_nodup _ _ h.nodupE hm
  · -- nkeys
    exact setNb_keys_nodup _ _ _ (setNb_keys_nodup _ _ _ h.nkeys)
  · -- corrF
    intro p hp d hd
    rcases mem_setNb_elim _ _ _ _ hp with rfl | hp₁
    · -- p = (b, addIfAbsent a (lookupNb m₁ b))
      rw [show lookupNb (setNb s.nbrA a (addIfAbsent b (lookupNb s.nbrA a))) b
            = lookupNb s.nbrA b from by rw [lookupNb_setNb, if_neg (fun h => hab h.symm)]]
          at hd
      rw [mem_addIfAbsent] at hd
      rcases hd with hd | rfl
      · exact (hedge _).mpr (Or.inl (h.nb_sub b d hd))
      · exact (hedge _).mpr (Or.inr (mkE_symm b d (Ne.symm hcid)))
    · rcases mem_setNb_elim _ _ _ _ hp₁ with rfl | hp₂
      · -- p = (a, addIfAbsent b (lookupNb s.nbrA a))
        rw [mem_addIfAbsent] at hd
        rcases hd with hd | rfl
        · exact (hedge _).mpr (Or.inl (h.nb_sub a d hd))
        · exact (hedge _).mpr (Or.inr rfl)
      · exact (hedge _).mpr (Or.inl (h.corrF p hp₂ d hd))
  · -- corrB
    intro e he
    rcases (hedge e).mp he with he | rfl
    · obtain ⟨h1, h2⟩ := h.corrB e he
      exact ⟨addEdge_nb_superset _ _ _ _ _ hab h1, addEdge_nb_superset _ _ _ _ _ hab h2⟩
    · have hba : b ∈ lookupNb (addEdge a b s).nbrA a := by
        rw [addEdge_nb_fst _ _ _ hab, mem_addIfAbsent]
        exact Or.inr rfl
      have hab' : a ∈ lookupNb (addEdge a b s).nbrA b := by
        rw [addEdge_nb_snd _ _ _ hab, mem_addIfAbsent]
        exact Or.inr rfl
      rcases mkE_endpoints a b with ⟨h1, h2⟩ | ⟨h1, h2⟩ <;> rw [h1, h2]
      · exact ⟨hba, hab'⟩
      · exact ⟨hab', hba⟩
  · -- nodupN
    intro p hp
    rcases mem_setNb_elim _ _ _ _ hp with rfl | hp₁
    · rw [show lookupNb (setNb s.nbrA a (addIfAbsent b (lookupNb s.nbrA a))) b
            = lookupNb s.nbrA b from by rw [lookupNb_setNb, if_neg (fun h => hab h.symm)]]
      exact addIfAbsent_nodup _ _ (h.nb_nodup b)
    · rcases mem_setNb_elim _ _ _ _ hp₁ with rfl | hp₂
      · exact addIfAbsent_nodup _ _ (h.nb_nodup a)
      · exact h.nodupN p hp₂
  · -- cellsND
    exact h.cellsND
  · -- edgeCells
    intro e he
    rcases (hedge e).mp he with he | rfl
    · exact h.edgeCells e he
    · rcases mkE_endpoints a b with ⟨h1, h2⟩ | ⟨h1, h2⟩ <;> rw [h1, h2]
      · exact ⟨ha, hb⟩
      · exact ⟨hb, ha⟩
  · -- freshC
    exact h.freshC
  · -- freshE
    intro e he
    rcases (hedge e).mp he with he | rfl
    · exact h.freshE e he
    · rcases mkE_endpoints a b with ⟨h1, h2⟩ | ⟨h1, h2⟩ <;> rw [h1, h2]
      · exact ⟨hfa, hfb⟩
      · exact ⟨hfb, hfa⟩
  · -- freshN
    intro p hp
    rcases mem_setNb_elim _ _ _ _ hp with rfl | hp₁
    · refine ⟨hfb, ?_⟩
      intro d hd
      rw [show lookupNb (setNb s.nbrA a (addIfAbsent b (lookupNb s.nbrA a))) b
            = lookupNb s.nbrA b from by rw [lookupNb_setNb, if_neg (fun h => hab h.symm)]]
          at hd
      rw [mem_addIfAbsent] at hd
      rcases hd with hd | rfl
      · exact h.nb_cid_lt b d hd
      · exact hfa
    · rcases mem_setNb_elim _ _ _ _ hp₁ with rfl | hp₂
      · refine ⟨hfa, ?_⟩
        intro d hd
        rw [mem_addIfAbsent] at hd
        rcases hd with hd | rfl
        · exact h.nb_cid_lt a d hd
        · exact hfb
      · exact h.freshN p hp₂

/-! ## Effects of removeEdgeE -/

theorem mem_setNb_elim_strong (m : NbrMap) (c : Cell) (v : List Cell)
    (p : Cell × List Cell) (hnd : (m.map Prod.fst).Nodup) (hp : p ∈ setNb m c v) :
    p = (c, v) ∨ (p ∈ m ∧ p.1 ≠ c) := by
  induction m with
  | nil =>
    simp [setNb] at hp
    exact Or.inl hp
  | cons q rest ih =>
    obtain ⟨k, w⟩ := q
    rw [List.map_cons, List.nodup_cons] at hnd
    by_cases hk : k = c
    · subst hk
      rw [show setNb ((k, w) :: rest) k v = (k, v) :: rest from if_pos rfl] at hp
      rcases List.mem_cons.mp hp with heq | hmem
      · exact Or.inl heq
      · refine Or.inr ⟨List.mem_cons_of_mem _ hmem, ?_⟩
        intro hpk
        have hfst : p.1 ∈ rest.map Prod.fst := List.mem_map_of_mem Prod.fst hmem
        rw [hpk] at hfst
        exact hnd.1 hfst
    · rw [show setNb ((k, w) :: rest) c v = (k, w) :: setNb rest c v from if_neg hk] at hp
      rcases List.mem_cons.mp hp with heq | hmem
      · refine Or.inr ⟨heq ▸ List.mem_cons_self _ _, ?_⟩
        rw [heq]
        exact hk
      · rcases ih hnd.2 hmem with h | ⟨h1, h2⟩
        · exact Or.inl h
        · exact Or.inr ⟨List.mem_cons_of_mem _ h1, h2⟩

theorem WF.adj_cid_ne_of_edge (h : WF s) (a b : Cell) (hab : mkE a b ∈ s.edgeList) :
    a.cid ≠ b.cid := by
  have hn := h.norm _ hab
  rcases mkE_endpoints a b with ⟨h1, h2⟩ | ⟨h1, h2⟩ <;> rw [h1, h2] at hn <;> omega

theorem removeEdgeE_eq_ok (s : St) (a b : Cell)
    (hab : mkE a b ∈ s.edgeList)
    (hba : b ∈ lookupNb s.nbrA a) (hbb : a ∈ lookupNb s.nbrA b) :
    removeEdgeE a b s = .ok (removeEdgeSt a b s) := by
  rw [removeEdgeE, if_pos hab, if_pos ⟨hba, hbb⟩]
  rfl

theorem removeEdgeSt_nb_a (a b : Cell) (s : St) (hne : a ≠ b) :
    lookupNb (removeEdgeSt a b s).nbrA a = (lookupNb s.nbrA a).erase b := by
  show lookupNb (setNb (setNb s.nbrA a ((lookupNb s.nbrA a).erase b)) b _) a = _
  rw [lookupNb_setNb, if_neg hne, lookupNb_setNb, if_pos rfl]

theorem removeEdgeSt_nb_b (a b : Cell) (s : St) (hne : a ≠ b) :
    lookupNb (removeEdgeSt a b s).nbrA b = (lookupNb s.nbrA b).erase a := by
  show lookupNb (setNb (setNb s.nbrA a ((lookupNb s.nbrA a).erase b)) b
      ((lookupNb (setNb s.nbrA a ((lookupNb s.nbrA a).erase b)) b).erase a)) b = _
  rw [lookupNb_setNb, if_pos rfl, lookupNb_setNb, if_neg (fun hh => hne hh.symm)]

theorem removeEdgeSt_nb_other (a b x : Cell) (s : St) (hxa : x ≠ a) (hxb : x ≠ b) :
    lookupNb (removeEdgeSt a b s).nbrA x = lookupNb s.nbrA x := by
  show lookupNb (setNb (setNb s.nbrA a ((lookupNb s.nbrA a).erase b)) b _) x = _
  rw [lookupNb_setNb, if_neg hxb, lookupNb_setNb, if_neg hxa]

theorem WF_removeEdgeSt (s : St) (a b : Cell) (h : WF s) (hab : mkE a b ∈ s.edgeList) :
    WF (removeEdgeSt a b s) := by
  have hcid : a.cid ≠ b.cid := h.adj_cid_ne_of_edge a b hab
  have hne : a ≠ b := fun heq => hcid (by rw [heq])
  have hba : mkE b a = mkE a b := mkE_symm b a (Ne.symm hcid)
  have hEsub : ∀ f, f ∈ (removeEdgeSt a b s).edgeList → f ∈ s.edgeList :=
    fun f hf => List.mem_of_mem_erase hf
  have hEne : ∀ f, f ∈ (removeEdgeSt a b s).edgeList → f ≠ mkE a b :=
    fun f hf => (h.nodupE.mem_erase_iff.mp hf).1
  have hEmem : ∀ f, f ∈ s.edgeList → f ≠ mkE a b → f ∈ (removeEdgeSt a b s).edgeList :=
    fun f hf hne' => (List.mem_erase_of_ne hne').mpr hf
  have hkeep : ∀ x y, y ∈ lookupNb s.nbrA x → mkE x y ≠ mkE a b →
      y ∈ lookupNb (removeEdgeSt a b s).nbrA x := by
    intro x y hy hne'
    by_cases hxa : x = a
    · subst hxa
      rw [removeEdgeSt_nb_a _ _ _ hne]
      refine (List.mem_erase_of_ne ?_).mpr hy
      intro hyb
      exact hne' (by rw [hyb])
    · by_cases hxb : x = b
      · subst hxb
        rw [removeEdgeSt_nb_b _ _ _ hne]
        refine (List.mem_erase_of_ne ?_).mpr hy
        intro hya
        subst hya
        exact hne' hba
      · rw [removeEdgeSt_nb_other _ _ _ _ hxa hxb]
        exact hy
  refine ⟨?_, ?_, ?_, ?_, ?_, ?_, ?_, ?_, ?_, ?_, ?_, ?_⟩
  · exact List.Pairwise.sublist (List.erase_sublist _ _) h.sorted
  · exact fun e he => h.norm e (hEsub e he)
  · exact h.nodupE.erase _
  · exact setNb_keys_nodup _ _ _ (setNb_keys_nodup _ _ _ h.nkeys)
  · -- corrF
    intro p hp d hd
    have hk₁ := setNb_keys_nodup s.nbrA a ((lookupNb s.nbrA a).erase b) h.nkeys
    have hm₁b : lookupNb (setNb s.nbrA a ((lookupNb s.nbrA a).erase b)) b
        = lookupNb s.nbrA b := by
      rw [lookupNb_setNb, if_neg (fun hh => hne hh.symm)]
    rcases mem_setNb_elim_strong _ _ _ _ hk₁ hp with rfl | ⟨hp₁, hp₁b⟩
    · -- p is b's updated entry
      rw [hm₁b] at hd
      have hd' := (h.nb_nodup b).mem_erase_iff.mp hd
      refine hEmem _ (h.nb_sub b d hd'.2) ?_
      intro heq
      have hdb : d ≠ b := fun hdbe => (h.not_self_nb b) (hdbe ▸ hd'.2)
      exact hd'.1 (mkE_arg_eq b d a hdb (heq.trans hba.symm))
    · rcases mem_setNb_elim_strong _ _ _ _ h.nkeys hp₁ with rfl | ⟨hp₂, hp₂a⟩
      · -- p is a's updated entry
        have hd' := (h.nb_nodup a).mem_erase_iff.mp hd
        refine hEmem _ (h.nb_sub a d hd'.2) ?_
        intro heq
        have hda : d ≠ a := fun hdae => (h.not_self_nb a) (hdae ▸ hd'.2)
        exact hd'.1 (mkE_arg_eq a d b hda heq)
      · -- untouched entry
        refine hEmem _ (h.corrF p hp₂ d hd) ?_
        intro heq
        rcases mkE_cases p.1 d with g | g <;> rcases mkE_cases a b with k | k <;>
          rw [g, k] at heq
        · exact hp₂a (congrArg Prod.fst heq)
        · exact hp₁b (congrArg Prod.fst heq)
        · exact hp₁b (congrArg Prod.snd heq)
        · exact hp₂a (congrArg Prod.snd heq)
  · -- corrB
    intro e he
    have he₀ := hEsub e he
    have hne' : e ≠ mkE a b := hEne e he
    obtain ⟨h1, h2⟩ := h.corrB e he₀
    have hcidE : e.1.cid ≠ e.2.cid := by
      have := h.norm e he₀
      omega
    constructor
    · refine hkeep e.1 e.2 h1 ?_
      rw [h.edge_norm_eq e he₀]
      exact hne'
    · refine hkeep e.2 e.1 h2 ?_
      rw [mkE_symm e.2 e.1 (Ne.symm hcidE), h.edge_norm_eq e he₀]
      exact hne'
  · -- nodupN
    intro p hp
    have hm₁b : lookupNb (setNb s.nbrA a ((lookupNb s.nbrA a).erase b)) b
        = lookupNb s.nbrA b := by
      rw [lookupNb_setNb, if_neg (fun hh => hne hh.symm)]
    rcases mem_setNb_elim _ _ _ _ hp with rfl | hp₁
    · rw [hm₁b]
      exact (h.nb_nodup b).erase _
    · rcases mem_setNb_elim _ _ _ _ hp₁ with rfl | hp₂
      · exact (h.nb_nodup a).erase _
      · exact h.nodupN p hp₂
  · exact h.cellsND
  · exact fun e he => h.edgeCells e (hEsub e he)
  · exact h.freshC
  · exact fun e he => h.freshE e (hEsub e he)
  · -- freshN
    intro p hp
    have hm₁b : lookupNb (setNb s.nbrA a ((lookupNb s.nbrA a).erase b)) b
        = lookupNb s.nbrA b := by
      rw [lookupNb_setNb, if_neg (fun hh => hne hh.symm)]
    have hba' : b ∈ lookupNb s.nbrA a := (h.corr a b).mpr hab
    have hbb' : a ∈ lookupNb s.nbrA b := (h.corr b a).mpr (hba ▸ hab)
    rcases mem_setNb_elim _ _ _ _ hp with rfl | hp₁
    · refine ⟨h.nb_cid_lt a b hba', ?_⟩
      intro d hd
      rw [hm₁b] at hd
      exact h.nb_cid_lt b d (List.mem_of_mem_erase hd)
    · rcases mem_setNb_elim _ _ _ _ hp₁ with rfl | hp₂
      · refine ⟨h.nb_cid_lt b a hbb', ?_⟩
        intro d hd
        exact h.nb_cid_lt a d (List.mem_of_mem_erase hd)
      · exact h.freshN p hp₂

theorem removeEdgeE_ok (s : St) (a b : Cell) (h : WF s) (hab : mkE a b ∈ s.edgeList) :
    removeEdgeE a b s = .ok (removeEdgeSt a b s) := by
  have hcid : a.cid ≠ b.cid := h.adj_cid_ne_of_edge a b hab
  have hba : mkE b a = mkE a b := mkE_symm b a (Ne.symm hcid)
  exact removeEdgeE_eq_ok s a b hab ((h.corr a b).mpr hab) ((h.corr b a).mpr (hba ▸ hab))

theorem removeEdgeSt_edgeList (a b : Cell) (s : St) :
    (removeEdgeSt a b s).edgeList = s.edgeList.erase (mkE a b) := rfl

theorem removeEdgeSt_cells (a b : Cell) (s : St) :
    (removeEdgeSt a b s).cells = s.cells := rfl

theorem removeEdgeSt_nextId (a b : Cell) (s : St) :
    (removeEdgeSt a b s).nextId = s.nextId := rfl

theorem removeEdgeSt_length (a b : Cell) (s : St)
    (hab : mkE a b ∈ s.edgeList) :
    (removeEdgeSt a b s).edgeList.length + 1 = s.edgeList.length := by
  rw [removeEdgeSt_edgeList, List.length_erase_of_mem hab]
  have : s.edgeList.length ≠ 0 := by
    intro h0
    rw [List.length_eq_zero] at h0
    rw [h0] at hab
    exact absurd hab (List.not_mem_nil _)
  omega

/-! ## Effects of removeCellE -/

theorem removeCellGo_ok (a : Cell) (l : List Cell) :
    ∀ (t : St), WF t → l.Nodup → (∀ x ∈ l, x ∈ lookupNb t.nbrA a) →
    ∃ t', removeCellGo a l t = .ok t' ∧ WF t' ∧
      t'.cells = t.cells ∧ t'.nextId = t.nextId ∧
      t'.edgeList.length + l.length = t.edgeList.length ∧
      (∀ f, f ∈ t'.edgeList ↔ (f ∈ t.edgeList ∧ ∀ x ∈ l, f ≠ mkE a x)) ∧
      (∀ y, y ∉ l → y ≠ a → lookupNb t'.nbrA y = lookupNb t.nbrA y) ∧
      (∀ y ∈ l, lookupNb t'.nbrA y = (lookupNb t.nbrA y).erase a) ∧
      (∀ y, y ∈ lookupNb t'.nbrA a ↔ (y ∈ lookupNb t.nbrA a ∧ y ∉ l)) := by
  induction l with
  | nil =>
    intro t hWF _ _
    refine ⟨t, rfl, hWF, rfl, rfl, by simp, ?_, ?_, ?_, ?_⟩
    · intro f
      simp
    · intro y _ _
      rfl
    · intro y hy
      exact absurd hy (List.not_mem_nil y)
    · intro y
      simp
  | cons x rest ih =>
    intro t hWF hnd hsub
    rw [List.nodup_cons] at hnd
    have hx : x ∈ lookupNb t.nbrA a := hsub x (List.mem_cons_self x rest)
    have hedge : mkE a x ∈ t.edgeList := hWF.nb_sub a x hx
    have hax : a ≠ x := by
      intro heq
      exact hWF.not_self_nb a (heq ▸ hx)
    have hxa : x ≠ a := fun heq => hax heq.symm
    have hstep : removeEdgeE a x t = .ok (removeEdgeSt a x t) :=
      removeEdgeE_ok t a x hWF hedge
    have hWFu : WF (removeEdgeSt a x t) := WF_removeEdgeSt t a x hWF hedge
    have hua : lookupNb (removeEdgeSt a x t).nbrA a = (lookupNb t.nbrA a).erase x :=
      removeEdgeSt_nb_a a x t hax
    have hsub' : ∀ z ∈ rest, z ∈ lookupNb (removeEdgeSt a x t).nbrA a := by
      intro z hz
      rw [hua]
      refine (List.mem_erase_of_ne ?_).mpr (hsub z (List.mem_cons_of_mem x hz))
      intro heq
      exact hnd.1 (heq ▸ hz)
    obtain ⟨t', hrun, hWF', hcells, hnid, hlen, hfchar, hother, hinl, hachar⟩ :=
      ih (removeEdgeSt a x t) hWFu hnd.2 hsub'
    have hulen : (removeEdgeSt a x t).edgeList.length + 1 = t.edgeList.length :=
      removeEdgeSt_length a x t hedge
    refine ⟨t', ?_, hWF', hcells, hnid, ?_, ?_, ?_, ?_, ?_⟩
    · show (match removeEdgeE a x t with
        | .ok u => removeCellGo a rest u
        | .error e => .error e) = .ok t'
      rw [hstep]
      exact hrun
    · simp only [List.length_cons]
      omega
    · -- membership characterisation
      intro f
      rw [hfchar f]
      show f ∈ t.edgeList.erase (mkE a x) ∧ _ ↔ _
      rw [hWF.nodupE.mem_erase_iff]
      constructor
      · rintro ⟨⟨hne', hf⟩, hrest⟩
        refine ⟨hf, ?_⟩
        intro z hz
        rcases List.mem_cons.mp hz with rfl | hz
        · exact hne'
        · exact hrest z hz
      · rintro ⟨hf, hall⟩
        exact ⟨⟨hall x (List.mem_cons_self x rest), hf⟩,
          fun z hz => hall z (List.mem_cons_of_mem x hz)⟩
    · -- untouched lookups
      intro y hy hya
      have hyx : y ≠ x := fun heq => hy (heq ▸ List.mem_cons_self x rest)
      have hyrest : y ∉ rest := fun hmem => hy (List.mem_cons_of_mem x hmem)
      rw [hother y hyrest hya, removeEdgeSt_nb_other a x y t hya hyx]
    · -- lookups of the removed neighbours
      intro y hy
      rcases List.mem_cons.mp hy with rfl | hy
      · rw [hother y hnd.1 hxa, removeEdgeSt_nb_b a y t hax]
      · have hya : y ≠ a := by
          intro heq
          exact hWF.not_self_nb a (heq ▸ hsub y (List.mem_cons_of_mem x hy))
        have hyx : y ≠ x := fun heq => hnd.1 (heq ▸ hy)
        rw [hinl y hy, removeEdgeSt_nb_other a x y t hya hyx]
    · -- the cell's own neighbour list
      intro y
      rw [hachar y, hua, List.mem_cons]
      rw [(hWF.nb_nodup a).mem_erase_iff]
      constructor
      · rintro ⟨⟨hyx, hy⟩, hyr⟩
        refine ⟨hy, ?_⟩
        rintro (rfl | hmem)
        · exact hyx rfl
        · exact hyr hmem
      · rintro ⟨hy, hall⟩
        exact ⟨⟨fun heq => hall (Or.inl heq), hy⟩, fun hmem => hall (Or.inr hmem)⟩

theorem removeCellE_ok (a : Cell) (t : St) (h : WF t) :
    ∃ t', removeCellE a t = .ok t' ∧ WF t' ∧
      t'.cells = t.cells ∧ t'.nextId = t.nextId ∧
      t'.edgeList.length + (lookupNb t.nbrA a).length = t.edgeList.length ∧
      (∀ f, f ∈ t'.edgeList ↔ (f ∈ t.edgeList ∧ f.1 ≠ a ∧ f.2 ≠ a)) ∧
      lookupNb t'.nbrA a = [] ∧
      (∀ y, y ≠ a → lookupNb t'.nbrA y = (lookupNb t.nbrA y).erase a) := by
  obtain ⟨t', hrun, hWF', hcells, hnid, hlen, hfchar, hother, hinl, hachar⟩ :=
    removeCellGo_ok a (lookupNb t.nbrA a) t h (h.nb_nodup a) (fun x hx => hx)
  refine ⟨t', hrun, hWF', hcells, hnid, hlen, ?_, ?_, ?_⟩
  · -- incidence characterisation
    intro f
    rw [hfchar f]
    constructor
    · rintro ⟨hf, hall⟩
      refine ⟨hf, ?_, ?_⟩
      · intro h1
        have hsnd : f.2 ∈ lookupNb t.nbrA a := by
          rw [← h1]
          exact (h.corrB f hf).1
        have heq : mkE a f.2 = f := by
          rw [← h1]
          exact h.edge_norm_eq f hf
        exact hall f.2 hsnd heq.symm
      · intro h2
        have hfst : f.1 ∈ lookupNb t.nbrA a := by
          rw [← h2]
          exact (h.corrB f hf).2
        have hcid : f.1.cid ≠ f.2.cid := by
          have := h.norm f hf
          omega
        have heq : mkE a f.1 = f := by
          rw [← h2, ← mkE_symm f.1 f.2 hcid]
          exact h.edge_norm_eq f hf
        exact hall f.1 hfst heq.symm
    · rintro ⟨hf, h1, h2⟩
      refine ⟨hf, ?_⟩
      intro z hz heq
      rcases mkE_endpoints a z with ⟨g1, g2⟩ | ⟨g1, g2⟩
      · exact h1 (by rw [heq, g1])
      · exact h2 (by rw [heq, g2])
  · -- the removed cell has no neighbours left
    rw [List.eq_nil_iff_forall_not_mem]
    intro y hy
    exact ((hachar y).mp hy).2 ((hachar y).mp hy).1
  · -- every other neighbour list loses `a`
    intro y hya
    by_cases hmem : y ∈ lookupNb t.nbrA a
    · exact hinl y hmem
    · rw [hother y hmem hya, List.erase_of_not_mem]
      intro hay
      have hYedge : mkE y a ∈ t.edgeList := h.nb_sub y a hay
      have hcid : y.cid ≠ a.cid := h.adj_cid_ne_of_edge y a hYedge
      have : mkE a y ∈ t.edgeList := by
        rw [mkE_symm a y (Ne.symm hcid)]
        exact hYedge
      exact hmem ((h.corr a y).mpr this)

/-! ## Effects of mkNewCell -/

theorem newCellFold_ok (c : Cell) (l : List Cell) :
    ∀ (t : St), WF t → l.Nodup →
    (∀ x ∈ l, x ∈ t.cells) → (∀ x ∈ l, x.cid < c.cid) →
    (∀ x ∈ l, x ∉ lookupNb t.nbrA c) →
    c ∈ t.cells → c.cid < t.nextId →
    ∃ t', l.foldl (fun u x => addEdge c x u) t = t' ∧ WF t' ∧
      t'.cells = t.cells ∧ t'.nextId = t.nextId ∧
      t'.edgeList.length = t.edgeList.length + l.length ∧
      (∀ f, f ∈ t'.edgeList ↔ f ∈ t.edgeList ∨ ∃ x ∈ l, f = mkE c x) ∧
      lookupNb t'.nbrA c = lookupNb t.nbrA c ++ l ∧
      (∀ y ∈ l, lookupNb t'.nbrA y = lookupNb t.nbrA y ++ [c]) ∧
      (∀ y, y ∉ l → y ≠ c → lookupNb t'.nbrA y = lookupNb t.nbrA y) := by
  induction l with
  | nil =>
    intro t hWF _ _ _ _ _ _
    refine ⟨t, rfl, hWF, rfl, rfl, by simp, ?_, by simp, ?_, ?_⟩
    · intro f
      simp
    · intro y hy
      exact absurd hy (List.not_mem_nil y)
    · intro y _ _
      rfl
  | cons x rest ih =>
    intro t hWF hnd hmem hcid hnadj hc hcnid
    rw [List.nodup_cons] at hnd
    have hxcid : x.cid < c.cid := hcid x (List.mem_cons_self x rest)
    have hcx : c.cid ≠ x.cid := by omega
    have hcxne : c ≠ x := fun heq => hcx (by rw [heq])
    have hxc : x ≠ c := fun heq => hcxne heq.symm
    have hxmem : x ∈ t.cells := hmem x (List.mem_cons_self x rest)
    have hxnadj : x ∉ lookupNb t.nbrA c := hnadj x (List.mem_cons_self x rest)
    have hnoedge : mkE c x ∉ t.edgeList := fun he => hxnadj ((hWF.corr c x).mpr he)
    have hcnadj : c ∉ lookupNb t.nbrA x := by
      intro hcl
      have := hWF.nb_sub x c hcl
      rw [mkE_symm x c (Ne.symm hcx)] at this
      exact hnoedge this
    have hWFu : WF (addEdge c x t) :=
      WF_addEdge t c x hWF hcx hc hxmem hcnid (lt_trans hxcid hcnid)
    have hulen : (addEdge c x t).edgeList.length = t.edgeList.length + 1 := by
      rw [addEdge_length, if_neg hnoedge]
    have huc : lookupNb (addEdge c x t).nbrA c = lookupNb t.nbrA c ++ [x] := by
      rw [addEdge_nb_fst _ _ _ hcxne, addIfAbsent_of_not_mem _ _ hxnadj]
    have hux : lookupNb (addEdge c x t).nbrA x = lookupNb t.nbrA x ++ [c] := by
      rw [addEdge_nb_snd _ _ _ hcxne, addIfAbsent_of_not_mem _ _ hcnadj]
    obtain ⟨t', hfold, hWF', hcells, hnid, hlen, hfchar, hlc, hly, hlo⟩ :=
      ih (addEdge c x t) hWFu hnd.2
        (fun z hz => hmem z (List.mem_cons_of_mem x hz))
        (fun z hz => hcid z (List.mem_cons_of_mem x hz))
        (by
          intro z hz
          rw [huc, List.mem_append, List.mem_singleton]
          rintro (hzl | rfl)
          · exact hnadj z (List.mem_cons_of_mem x hz) hzl
          · exact hnd.1 hz)
        hc hcnid
    refine ⟨t', hfold, hWF', hcells, hnid, ?_, ?_, ?_, ?_, ?_⟩
    · rw [hlen, hulen, List.length_cons]
      omega
    · intro f
      rw [hfchar f, addEdge_edge_mem]
      constructor
      · rintro ((hf | rfl) | ⟨z, hz, rfl⟩)
        · exact Or.inl hf
        · exact Or.inr ⟨x, List.mem_cons_self x rest, rfl⟩
        · exact Or.inr ⟨z, List.mem_cons_of_mem x hz, rfl⟩
      · rintro (hf | ⟨z, hz, rfl⟩)
        · exact Or.inl (Or.inl hf)
        · rcases List.mem_cons.mp hz with rfl | hz
          · exact Or.inl (Or.inr rfl)
          · exact Or.inr ⟨z, hz, rfl⟩
    · rw [hlc, huc, List.append_assoc, List.singleton_append]
    · intro y hy
      rcases List.mem_cons.mp hy with rfl | hy
      · rw [hlo y hnd.1 hxc, hux]
      · have hyx : y ≠ x := fun heq => hnd.1 (heq ▸ hy)
        have hyc : y ≠ c := by
          intro heq
          have := hcid y (List.mem_cons_of_mem x hy)
          rw [heq] at this
          omega
        rw [hly y hy, addEdge_nb_other _ _ _ _ hyc hyx]
    · intro y hy hyc
      have hyx : y ≠ x := fun heq => hy (heq ▸ List.mem_cons_self x rest)
      have hyrest : y ∉ rest := fun hmem' => hy (List.mem_cons_of_mem x hmem')
      rw [hlo y hyrest hyc, addEdge_nb_other _ _ _ _ hyc hyx]

theorem WF_newCellBase (s : St) (h : WF s) (colour : List ℚ) (pos : ℚ × ℚ) (w : ℕ) :
    WF { edgeList := s.edgeList
         nbrA := s.nbrA
         cells := s.cells ++ [(⟨s.nextId, colour, pos, w⟩ : Cell)]
         nextId := s.nextId + 1 } := by
  refine ⟨h.sorted, h.norm, h.nodupE, h.nkeys, h.corrF, h.corrB, h.nodupN, ?_, ?_, ?_, ?_, ?_⟩
  · -- cells stay duplicate-free: the new cell has a fresh id
    refine List.Nodup.append h.cellsND (List.nodup_singleton _) ?_
    intro z hz hz'
    rw [List.mem_singleton] at hz'
    have hzlt := h.freshC z hz
    rw [hz'] at hzlt
    dsimp only at hzlt
    omega
  · intro e he
    obtain ⟨h1, h2⟩ := h.edgeCells e he
    exact ⟨List.mem_append_left _ h1, List.mem_append_left _ h2⟩
  · intro z hz
    dsimp only
    rcases List.mem_append.mp hz with hz | hz
    · have := h.freshC z hz
      omega
    · rw [List.mem_singleton] at hz
      rw [hz]
      dsimp only
      omega
  · intro e he
    have := h.freshE e he
    dsimp only
    omega
  · intro p hp
    obtain ⟨h1, h2⟩ := h.freshN p hp
    dsimp only
    refine ⟨by omega, ?_⟩
    intro d hd
    have := h2 d hd
    omega

theorem mkNewCell_ok (colour : List ℚ) (pos : ℚ × ℚ) (w : ℕ) (nbl : List Cell) (s : St)
    (h : WF s) (hnd : nbl.Nodup)
    (hmem : ∀ x ∈ nbl, x ∈ s.cells) (hcid : ∀ x ∈ nbl, x.cid < s.nextId) :
    ∃ s', mkNewCell colour pos w nbl s = (⟨s.nextId, colour, pos, w⟩, s') ∧ WF s' ∧
      s'.cells = s.cells ++ [(⟨s.nextId, colour, pos, w⟩ : Cell)] ∧
      s'.nextId = s.nextId + 1 ∧
      s'.edgeList.length = s.edgeList.length + nbl.length ∧
      (∀ f, f ∈ s'.edgeList ↔
        f ∈ s.edgeList ∨ ∃ x ∈ nbl, f = mkE ⟨s.nextId, colour, pos, w⟩ x) ∧
      lookupNb s'.nbrA ⟨s.nextId, colour, pos, w⟩ = nbl ∧
      (∀ y ∈ nbl, lookupNb s'.nbrA y =
        lookupNb s.nbrA y ++ [(⟨s.nextId, colour, pos, w⟩ : Cell)]) ∧
      (∀ y, y ∉ nbl → y ≠ ⟨s.nextId, colour, pos, w⟩ →
        lookupNb s'.nbrA y = lookupNb s.nbrA y) := by
  set c : Cell := ⟨s.nextId, colour, pos, w⟩ with hc
  set s₀ : St := { s with cells := s.cells ++ [c], nextId := s.nextId + 1 } with hs₀
  have hWF₀ : WF s₀ := WF_newCellBase s h colour pos w
  have hfresh : lookupNb s.nbrA c = [] := h.nb_fresh_nil c (le_refl _)
  obtain ⟨s', hfold, hWF', hcells, hnid, hlen, hfchar, hlc, hly, hlo⟩ :=
    newCellFold_ok c nbl s₀ hWF₀ hnd
      (fun x hx => List.mem_append_left _ (hmem x hx))
      (fun x hx => hcid x hx)
      (by
        intro x hx
        show x ∉ lookupNb s.nbrA c
        rw [hfresh]
        exact List.not_mem_nil x)
      (List.mem_append_right _ (List.mem_singleton_self c))
      (by show s.nextId < s.nextId + 1; omega)
  refine ⟨s', by rw [mkNewCell]; exact congrArg _ hfold, hWF', by rw [hcells], by rw [hnid],
    by rw [hlen], hfchar, ?_, ?_, hlo⟩
  · rw [hlc]
    show lookupNb s.nbrA c ++ nbl = nbl
    rw [hfresh, List.nil_append]
  · intro y hy
    exact hly y hy

/-! ## The merge lemma -/

theorem WF_cellsErase (t : St) (h : WF t) (a b : Cell)
    (hedge : ∀ f ∈ t.edgeList, f.1 ≠ a ∧ f.2 ≠ a ∧ f.1 ≠ b ∧ f.2 ≠ b) :
    WF { edgeList := t.edgeList
         nbrA := t.nbrA
         cells := (t.cells.erase a).erase b
         nextId := t.nextId } := by
  refine ⟨h.sorted, h.norm, h.nodupE, h.nkeys, h.corrF, h.corrB, h.nodupN, ?_, ?_, ?_,
    h.freshE, h.freshN⟩
  · exact (h.cellsND.erase a).erase b
  · intro e he
    obtain ⟨h1, h2⟩ := h.edgeCells e he
    obtain ⟨g1, g2, g3, g4⟩ := hedge e he
    exact ⟨(List.mem_erase_of_ne g3).mpr ((List.mem_erase_of_ne g1).mpr h1),
      (List.mem_erase_of_ne g4).mpr ((List.mem_erase_of_ne g2).mpr h2)⟩
  · intro z hz
    exact h.freshC z (List.mem_of_mem_erase (List.mem_of_mem_erase hz))

theorem mergeCells_ok (s : St) (a b : Cell) (h : WF s) (hab : mkE a b ∈ s.edgeList) :
    ∃ s', mergeCells a b s = .ok (mergedCell a b s, s') ∧
      WF s' ∧
      s'.nextId = s.nextId + 1 ∧
      s'.edgeList.length + 1 ≤ s.edgeList.length ∧
      weightSum s' = weightSum s ∧
      s'.cells = ((s.cells.erase a).erase b) ++ [mergedCell a b s] ∧
      (∀ y, y ∈ lookupNb s'.nbrA (mergedCell a b s) ↔
        ((y ∈ lookupNb s.nbrA a ∨ y ∈ lookupNb s.nbrA b) ∧ y ≠ a ∧ y ≠ b)) ∧
      (∀ f ∈ s'.edgeList, f.1 ≠ a ∧ f.2 ≠ a ∧ f.1 ≠ b ∧ f.2 ≠ b) ∧
      a ∉ s'.cells ∧ b ∉ s'.cells := by
  have hcid : a.cid ≠ b.cid := h.adj_cid_ne_of_edge a b hab
  have hne : a ≠ b := fun heq => hcid (by rw [heq])
  have hba : mkE b a = mkE a b := mkE_symm b a (Ne.symm hcid)
  have hacell : a ∈ s.cells ∧ b ∈ s.cells := by
    obtain ⟨h1, h2⟩ := h.edgeCells _ hab
    rcases mkE_endpoints a b with ⟨g1, g2⟩ | ⟨g1, g2⟩
    · rw [g1] at h1; rw [g2] at h2; exact ⟨h1, h2⟩
    · rw [g1] at h1; rw [g2] at h2; exact ⟨h2, h1⟩
  have hacid : a.cid < s.nextId ∧ b.cid < s.nextId := by
    obtain ⟨h1, h2⟩ := h.freshE _ hab
    rcases mkE_endpoints a b with ⟨g1, g2⟩ | ⟨g1, g2⟩
    · rw [g1] at h1; rw [g2] at h2; exact ⟨h1, h2⟩
    · rw [g1] at h1; rw [g2] at h2; exact ⟨h2, h1⟩
  -- step 1: remove the a-b edge
  have hstep₁ : removeEdgeE a b s = .ok (removeEdgeSt a b s) := removeEdgeE_ok s a b h hab
  set s₁ : St := removeEdgeSt a b s with hs₁
  have hWF₁ : WF s₁ := WF_removeEdgeSt s a b h hab
  have hlen₁ : s₁.edgeList.length + 1 = s.edgeList.length := removeEdgeSt_length a b s hab
  have hl_a : lookupNb s₁.nbrA a = (lookupNb s.nbrA a).erase b := removeEdgeSt_nb_a a b s hne
  have hl_b : lookupNb s₁.nbrA b = (lookupNb s.nbrA b).erase a := removeEdgeSt_nb_b a b s hne
  have hcells₁ : s₁.cells = s.cells := rfl
  have hnid₁ : s₁.nextId = s.nextId := rfl
  -- step 2: detach a
  obtain ⟨s₂, hstep₂, hWF₂, hcells₂, hnid₂, hlen₂, hfchar₂, hnbA₂, hnb₂⟩ :=
    removeCellE_ok a s₁ hWF₁
  -- step 3: detach b
  obtain ⟨s₃, hstep₃, hWF₃, hcells₃, hnid₃, hlen₃, hfchar₃, hnbB₃, hnb₃⟩ :=
    removeCellE_ok b s₂ hWF₂
  have hanotinb : a ∉ lookupNb s₁.nbrA b := by
    rw [hl_b]
    intro hmem
    exact (((h.nb_nodup b).mem_erase_iff).mp hmem).1 rfl
  have hs₂b : lookupNb s₂.nbrA b = lookupNb s₁.nbrA b := by
    rw [hnb₂ b (fun heq => hne heq.symm), List.erase_of_not_mem hanotinb]
  -- the neighbour set of the merged cell
  set nbl : List Cell := unionL (lookupNb s₁.nbrA a) (lookupNb s₁.nbrA b) with hnbl
  have hnbl_nodup : nbl.Nodup := by
    rw [hnbl, hl_a, hl_b]
    exact unionL_nodup _ _ ((h.nb_nodup a).erase b) ((h.nb_nodup b).erase a)
  have hnbl_char : ∀ y, y ∈ nbl ↔
      ((y ∈ lookupNb s.nbrA a ∨ y ∈ lookupNb s.nbrA b) ∧ y ≠ a ∧ y ≠ b) := by
    intro y
    rw [hnbl, mem_unionL, hl_a, hl_b, (h.nb_nodup a).mem_erase_iff,
      (h.nb_nodup b).mem_erase_iff]
    constructor
    · rintro (⟨hyb, hy⟩ | ⟨hya, hy⟩)
      · exact ⟨Or.inl hy, fun heq => h.not_self_nb a (heq ▸ hy), hyb⟩
      · exact ⟨Or.inr hy, hya, fun heq => h.not_self_nb b (heq ▸ hy)⟩
    · rintro ⟨hy | hy, hya, hyb⟩
      · exact Or.inl ⟨hyb, hy⟩
      · exact Or.inr ⟨hya, hy⟩
  have hnbl_cells : ∀ x ∈ nbl, x ∈ ((s.cells.erase a).erase b) := by
    intro x hx
    obtain ⟨hy, hya, hyb⟩ := (hnbl_char x).mp hx
    have hxcells : x ∈ s.cells := by
      rcases hy with hy | hy
      · have he := h.nb_sub a x hy
        obtain ⟨h1, h2⟩ := h.edgeCells _ he
        rcases mkE_endpoints a x with ⟨g1, g2⟩ | ⟨g1, g2⟩
        · rw [g2] at h2; exact h2
        · rw [g1] at h1; exact h1
      · have he := h.nb_sub b x hy
        obtain ⟨h1, h2⟩ := h.edgeCells _ he
        rcases mkE_endpoints b x with ⟨g1, g2⟩ | ⟨g1, g2⟩
        · rw [g2] at h2; exact h2
        · rw [g1] at h1; exact h1
    exact (List.mem_erase_of_ne hyb).mpr ((List.mem_erase_of_ne hya).mpr hxcells)
  have hnbl_cid : ∀ x ∈ nbl, x.cid < s.nextId := by
    intro x hx
    obtain ⟨hy, -, -⟩ := (hnbl_char x).mp hx
    rcases hy with hy | hy
    · exact h.nb_cid_lt a x hy
    · exact h.nb_cid_lt b x hy
  -- step 4: drop a and b from the live set
  have hedge₃ : ∀ f ∈ s₃.edgeList, f.1 ≠ a ∧ f.2 ≠ a ∧ f.1 ≠ b ∧ f.2 ≠ b := by
    intro f hf
    obtain ⟨hf₂, hb1, hb2⟩ := (hfchar₃ f).mp hf
    obtain ⟨hf₁, ha1, ha2⟩ := (hfchar₂ f).mp hf₂
    exact ⟨ha1, ha2, hb1, hb2⟩
  set s₄ : St := { edgeList := s₃.edgeList
                   nbrA := s₃.nbrA
                   cells := (s₃.cells.erase a).erase b
                   nextId := s₃.nextId } with hs₄
  have hWF₄ : WF s₄ := WF_cellsErase s₃ hWF₃ a b hedge₃
  have hcells₄ : s₄.cells = (s.cells.erase a).erase b := by
    show (s₃.cells.erase a).erase b = _
    rw [hcells₃, hcells₂, hcells₁]
  have hnid₄ : s₄.nextId = s.nextId := by
    show s₃.nextId = _
    rw [hnid₃, hnid₂, hnid₁]
  -- step 5: the new cell
  obtain ⟨s₅, hmk, hWF₅, hcells₅, hnid₅, hlen₅, hfchar₅, hlc₅, hly₅, hlo₅⟩ :=
    mkNewCell_ok (wavg a.colour b.colour a.weight b.weight)
      (wavgP a.position b.position a.weight b.weight) (a.weight + b.weight) nbl s₄ hWF₄
      hnbl_nodup (fun x hx => hcells₄ ▸ hnbl_cells x hx)
      (fun x hx => hnid₄ ▸ hnbl_cid x hx)
  have hc_eq : (⟨s₄.nextId, wavg a.colour b.colour a.weight b.weight,
      wavgP a.position b.position a.weight b.weight, a.weight + b.weight⟩ : Cell)
      = mergedCell a b s := by
    rw [mergedCell, hnid₄]
  -- run the whole definition
  have hrun : mergeCells a b s = .ok (mergedCell a b s, s₅) := by
    rw [mergeCells, hstep₁]
    show (match removeCellE a s₁ with
      | .error e => .error e
      | .ok s₂' =>
        match removeCellE b s₂' with
        | .error e => .error e
        | .ok s₃' =>
          .ok (mkNewCell (wavg a.colour b.colour a.weight b.weight)
            (wavgP a.position b.position a.weight b.weight) (a.weight + b.weight)
            (unionL (lookupNb s₁.nbrA a) (lookupNb s₁.nbrA b))
            { s₃' with cells := (s₃'.cells.erase a).erase b })
        : Except PyErr (Cell × St)) = _
    rw [hstep₂]
    show (match removeCellE b s₂ with
      | .error e => .error e
      | .ok s₃' =>
        .ok (mkNewCell (wavg a.colour b.colour a.weight b.weight)
          (wavgP a.position b.position a.weight b.weight) (a.weight + b.weight)
          (unionL (lookupNb s₁.nbrA a) (lookupNb s₁.nbrA b))
          { s₃' with cells := (s₃'.cells.erase a).erase b })
      : Except PyErr (Cell × St)) = _
    rw [hstep₃]
    show Except.ok (mkNewCell (wavg a.colour b.colour a.weight b.weight)
      (wavgP a.position b.position a.weight b.weight) (a.weight + b.weight) nbl s₄) = _
    rw [hmk, hc_eq]
  refine ⟨s₅, hrun, hWF₅, by rw [hnid₅, hnid₄], ?_, ?_, ?_, ?_, ?_, ?_, ?_⟩
  · -- the live edge count strictly decreases
    have hb_len : (lookupNb s₂.nbrA b).length = (lookupNb s₁.nbrA b).length := by
      rw [hs₂b]
    have hnbl_len : nbl.length ≤
        (lookupNb s₁.nbrA a).length + (lookupNb s₁.nbrA b).length := unionL_length _ _
    have hlen₄ : s₄.edgeList.length = s₃.edgeList.length := rfl
    omega
  · -- total weight is conserved
    have hpa : List.Perm s.cells (a :: s.cells.erase a) := List.perm_cons_erase hacell.1
    have hbmem : b ∈ s.cells.erase a :=
      (List.mem_erase_of_ne (fun heq : b = a => hne heq.symm)).mpr hacell.2
    have hpb : List.Perm (s.cells.erase a) (b :: (s.cells.erase a).erase b) :=
      List.perm_cons_erase hbmem
    have hsum : weightSum s =
        a.weight + (b.weight + (((s.cells.erase a).erase b).map Cell.weight).sum) := by
      show (s.cells.map Cell.weight).sum = _
      rw [(hpa.map Cell.weight).sum_eq]
      show a.weight + ((s.cells.erase a).map Cell.weight).sum = _
      rw [(hpb.map Cell.weight).sum_eq]
      rfl
    have hsum' : weightSum s₅ =
        (((s.cells.erase a).erase b).map Cell.weight).sum + (a.weight + b.weight) := by
      show (s₅.cells.map Cell.weight).sum = _
      rw [hcells₅, hcells₄, List.map_append, List.sum_append]
      rfl
    omega
  · rw [hcells₅, hcells₄, hc_eq]
  · -- neighbour set of the merged cell
    intro y
    rw [← hc_eq, hlc₅]
    exact hnbl_char y
  · -- no surviving edge touches a or b
    intro f hf
    rcases (hfchar₅ f).mp hf with hf₄ | ⟨x, hx, rfl⟩
    · exact hedge₃ f hf₄
    · obtain ⟨-, hxa, hxb⟩ := (hnbl_char x).mp hx
      have hca : (⟨s₄.nextId, wavg a.colour b.colour a.weight b.weight,
          wavgP a.position b.position a.weight b.weight, a.weight + b.weight⟩ : Cell) ≠ a := by
        intro heq
        have hcids := congrArg Cell.cid heq
        dsimp only at hcids
        rw [hnid₄] at hcids
        omega
      have hcb : (⟨s₄.nextId, wavg a.colour b.colour a.weight b.weight,
          wavgP a.position b.position a.weight b.weight, a.weight + b.weight⟩ : Cell) ≠ b := by
        intro heq
        have hcids := congrArg Cell.cid heq
        dsimp only at hcids
        rw [hnid₄] at hcids
        omega
      rcases mkE_endpoints (⟨s₄.nextId, wavg a.colour b.colour a.weight b.weight,
          wavgP a.position b.position a.weight b.weight, a.weight + b.weight⟩ : Cell) x
        with ⟨g1, g2⟩ | ⟨g1, g2⟩ <;> rw [g1, g2]
      · exact ⟨hca, hxa, hcb, hxb⟩
      · exact ⟨hxa, hca, hxb, hcb⟩
  · -- a is gone
    rw [hcells₅, hcells₄]
    intro hmem
    rcases List.mem_append.mp hmem with hmem | hmem
    · have := List.mem_of_mem_erase hmem
      exact (h.cellsND.mem_erase_iff.mp this).1 rfl
    · rw [List.mem_singleton] at hmem
      have hcids := congrArg Cell.cid hmem
      dsimp only at hcids
      rw [hnid₄] at hcids
      omega
  · -- b is gone
    rw [hcells₅, hcells₄]
    intro hmem
    rcases List.mem_append.mp hmem with hmem | hmem
    · exact ((h.cellsND.erase a).mem_erase_iff.mp hmem).1 rfl
    · rw [List.mem_singleton] at hmem
      have hcids := congrArg Cell.cid hmem
      dsimp only at hcids
      rw [hnid₄] at hcids
      omega

/-! ## The contraction loop -/

theorem mergeStepE_ok (s : St) (h : WF s) (hne : s.edgeList ≠ []) :
    ∃ s', mergeStepE s = .ok s' ∧ WF s' ∧
      s'.edgeList.length + 1 ≤ s.edgeList.length ∧
      weightSum s' = weightSum s := by
  cases hE : s.edgeList with
  | nil => exact absurd hE hne
  | cons e rest =>
    have hmem : e ∈ s.edgeList := by
      rw [hE]
      exact List.mem_cons_self _ _
    have hnorm : mkE e.1 e.2 ∈ s.edgeList := by
      rw [h.edge_norm_eq e hmem]
      exact hmem
    obtain ⟨s', hrun, hWF', hnid, hlen, hws, hcells, hnbc, hinc, hnA, hnB⟩ :=
      mergeCells_ok s e.1 e.2 h hnorm
    refine ⟨s', ?_, hWF', by rw [← hE]; exact hlen, hws⟩
    rw [mergeStepE, hE]
    show (match mergeCells e.1 e.2 s with
      | .ok r => .ok r.2
      | .error err => .error err : Except PyErr St) = .ok s'
    rw [hrun]

theorem contractLoop_ok (tgt : ℕ) :
    ∀ (fuel : ℕ) (s : St), WF s → s.edgeList.length ≤ fuel →
    ∃ s', contractLoop tgt fuel s = .ok (some s') ∧ WF s' ∧
      s'.edgeList.length ≤ tgt ∧ weightSum s' = weightSum s ∧
      (s.edgeList.length ≤ tgt → s' = s) := by
  intro fuel
  induction fuel with
  | zero =>
    intro s hWF hle
    have h0 : s.edgeList.length = 0 := Nat.le_zero.mp hle
    refine ⟨s, ?_, hWF, by omega, rfl, fun _ => rfl⟩
    rw [contractLoop, if_neg (by omega)]
  | succ fuel ih =>
    intro s hWF hle
    by_cases hgt : tgt < s.edgeList.length
    · obtain ⟨s₁, hstep, hWF₁, hlen₁, hws₁⟩ :=
        mergeStepE_ok s hWF (by
          intro hnil
          rw [hnil] at hgt
          simp at hgt)
      obtain ⟨s', hrun, hWF', hlen', hws', -⟩ := ih s₁ hWF₁ (by omega)
      refine ⟨s', ?_, hWF', hlen', by rw [hws', hws₁], fun hcon => absurd hcon (by omega)⟩
      rw [contractLoop, if_pos hgt, hstep]
      exact hrun
    · refine ⟨s, ?_, hWF, by omega, rfl, fun _ => rfl⟩
      rw [contractLoop, if_neg hgt]

/-! ## The similarity score over the reals -/

theorem sqNormDiff_nonneg (xs ys : List ℚ) : 0 ≤ sqNormDiff xs ys := by
  refine List.sum_nonneg ?_
  intro q hq
  rw [List.mem_map] at hq
  obtain ⟨p, -, rfl⟩ := hq
  positivity

theorem edgeKeySq_nonneg (e : Cell × Cell) : 0 ≤ edgeKeySq e :=
  mul_nonneg (by positivity) (sqNormDiff_nonneg _ _)

theorem edgeScore_eq_sqrt (e : Cell × Cell) :
    edgeScore e = Real.sqrt ((edgeKeySq e : ℚ) : ℝ) := by
  rw [edgeScore, edgeKeySq, compareColours]
  push_cast
  rw [Real.sqrt_mul (by positivity)
    ((sqNormDiff e.1.colour e.2.colour : ℚ) : ℝ)]
  rw [Real.sqrt_sq (by positivity)]

theorem edgeScore_mono (e f : Cell × Cell) (h : edgeKeySq e ≤ edgeKeySq f) :
    edgeScore e ≤ edgeScore f := by
  rw [edgeScore_eq_sqrt, edgeScore_eq_sqrt]
  exact Real.sqrt_le_sqrt (by exact_mod_cast h)

theorem edgeScore_strict_mono (e f : Cell × Cell) (h : edgeKeySq e < edgeKeySq f) :
    edgeScore e < edgeScore f := by
  rw [edgeScore_eq_sqrt, edgeScore_eq_sqrt]
  refine Real.sqrt_lt_sqrt ?_ ?_
  · exact_mod_cast edgeKeySq_nonneg e
  · exact_mod_cast h

theorem leastDifferenceEdge_minKey (s : St) (h : WF s) (e : Cell × Cell)
    (he : leastDifferenceEdge s = some e) :
    ∀ f ∈ s.edgeList, edgeKeySq e ≤ edgeKeySq f := by
  cases hE : s.edgeList with
  | nil =>
    rw [leastDifferenceEdge, hE] at he
    exact absurd he (by simp)
  | cons g rest =>
    rw [leastDifferenceEdge, hE] at he
    have hge : g = e := by
      simpa using he
    subst hge
    have hsorted := h.sorted
    rw [hE, List.pairwise_cons] at hsorted
    intro f hf
    rcases List.mem_cons.mp hf with rfl | hf
    · exact le_refl _
    · exact hsorted.1 f hf

/-! ## The initial grid -/

theorem foldl_cells_nextId {α : Type} (f : St → α → St)
    (hf : ∀ t x, (f t x).cells = t.cells ∧ (f t x).nextId = t.nextId) :
    ∀ (l : List α) (t : St), (l.foldl f t).cells = t.cells ∧
      (l.foldl f t).nextId = t.nextId := by
  intro l
  induction l with
  | nil => intro t; exact ⟨rfl, rfl⟩
  | cons x rest ih =>
    intro t
    rw [List.foldl_cons]
    obtain ⟨h1, h2⟩ := ih (f t x)
    obtain ⟨g1, g2⟩ := hf t x
    exact ⟨h1.trans g1, h2.trans g2⟩

theorem foldl_edge_mono {α : Type} (f : St → α → St) (e : Cell × Cell)
    (hf : ∀ t x, e ∈ t.edgeList → e ∈ (f t x).edgeList) :
    ∀ (l : List α) (t : St), e ∈ t.edgeList → e ∈ (l.foldl f t).edgeList := by
  intro l
  induction l with
  | nil => intro t ht; exact ht
  | cons x rest ih =>
    intro t ht
    rw [List.foldl_cons]
    exact ih (f t x) (hf t x ht)

theorem imageCellGrid_cells (h w : ℕ) (img : ℕ → ℕ → List ℚ) (s : St) :
    (imageCellGrid h w img s).cells =
      s.cells ++ (allPairs h w).map (fun p => gridCellAt s.nextId w img p.1 p.2) := by
  have hstep : ∀ (t : St) (p : ℕ × ℕ),
      ((gridNeighbours s.nextId h w img p.1 p.2).foldl
        (fun u n => addEdge (gridCellAt s.nextId w img p.1 p.2) n u) t).cells = t.cells ∧
      ((gridNeighbours s.nextId h w img p.1 p.2).foldl
        (fun u n => addEdge (gridCellAt s.nextId w img p.1 p.2) n u) t).nextId = t.nextId :=
    fun t p => foldl_cells_nextId
      (fun u n => addEdge (gridCellAt s.nextId w img p.1 p.2) n u)
      (fun _ _ => ⟨rfl, rfl⟩) _ t
  exact (foldl_cells_nextId _ hstep (allPairs h w) _).1

theorem imageCellGrid_edge_mono (h w : ℕ) (img : ℕ → ℕ → List ℚ) (s : St)
    (e : Cell × Cell) (he : e ∈ s.edgeList) : e ∈ (imageCellGrid h w img s).edgeList := by
  have hstep : ∀ (t : St) (p : ℕ × ℕ), e ∈ t.edgeList →
      e ∈ ((gridNeighbours s.nextId h w img p.1 p.2).foldl
        (fun u n => addEdge (gridCellAt s.nextId w img p.1 p.2) n u) t).edgeList :=
    fun t p ht => foldl_edge_mono _ e
      (fun u n hu => (addEdge_edge_mem _ _ _ _).mpr (Or.inl hu)) _ t ht
  exact foldl_edge_mono _ e hstep (allPairs h w) _ he

theorem allPairs_length (h w : ℕ) : (allPairs h w).length = h * w := by
  induction h with
  | zero => simp [allPairs]
  | succ n ih =>
    have hsplit : allPairs (n + 1) w = allPairs n w ++ (List.range w).map (fun j => (n, j)) := by
      rw [allPairs, allPairs, List.range_succ, List.flatMap_append]
      simp
    rw [hsplit, List.length_append, ih, List.length_map, List.length_range, Nat.succ_mul]

theorem imageCellGrid_weightSum (h w : ℕ) (img : ℕ → ℕ → List ℚ) (s : St) :
    weightSum (imageCellGrid h w img s) = weightSum s + h * w := by
  rw [weightSum, imageCellGrid_cells, List.map_append, List.sum_append, List.map_map]
  have hconst : (Cell.weight ∘ fun p : ℕ × ℕ => gridCellAt s.nextId w img p.1 p.2)
      = fun _ => 1 := funext fun p => rfl
  rw [hconst, List.map_const', List.sum_replicate, allPairs_length, smul_eq_mul, mul_one]
  rfl

/-! ## The ring-expansion search -/

theorem argminFold_choice (rc : ℚ × ℚ) :
    ∀ (rest : List Cell) (c : Cell),
      argminFold rc c rest = c ∨ argminFold rc c rest ∈ rest := by
  intro rest
  induction rest with
  | nil => intro c; exact Or.inl rfl
  | cons x r ih =>
    intro c
    rw [argminFold]
    by_cases hlt : sqDistP x.position rc < sqDistP c.position rc
    · rw [if_pos hlt]
      rcases ih x with h | h
      · refine Or.inr ?_
        rw [h]
        exact List.mem_cons_self x r
      · exact Or.inr (List.mem_cons_of_mem x h)
    · rw [if_neg hlt]
      rcases ih c with h | h
      · exact Or.inl h
      · exact Or.inr (List.mem_cons_of_mem x h)

theorem argminFold_le_init (rc : ℚ × ℚ) :
    ∀ (rest : List Cell) (c : Cell),
      sqDistP (argminFold rc c rest).position rc ≤ sqDistP c.position rc := by
  intro rest
  induction rest with
  | nil => intro c; exact le_refl _
  | cons x r ih =>
    intro c
    rw [argminFold]
    by_cases hlt : sqDistP x.position rc < sqDistP c.position rc
    · rw [if_pos hlt]
      exact le_of_lt (lt_of_le_of_lt (ih x) hlt)
    · rw [if_neg hlt]
      exact ih c

theorem argminFold_min (rc : ℚ × ℚ) :
    ∀ (rest : List Cell) (c : Cell) (x : Cell), x ∈ rest →
      sqDistP (argminFold rc c rest).position rc ≤ sqDistP x.position rc := by
  intro rest
  induction rest with
  | nil => intro c x hx; exact absurd hx (List.not_mem_nil x)
  | cons y r ih =>
    intro c x hx
    rw [argminFold]
    rcases List.mem_cons.mp hx with rfl | hx
    · by_cases hlt : sqDistP x.position rc < sqDistP c.position rc
      · rw [if_pos hlt]
        exact argminFold_le_init rc r x
      · rw [if_neg hlt]
        exact le_trans (argminFold_le_init rc r c) (le_of_not_lt hlt)
    · by_cases hlt : sqDistP y.position rc < sqDistP c.position rc
      · rw [if_pos hlt]
        exact ih y x hx
      · rw [if_neg hlt]
        exact ih c x hx

theorem argminD_spec (rc : ℚ × ℚ) (l : List Cell) (hl : l ≠ []) :
    ∃ c, argminD rc l = some c ∧ c ∈ l ∧
      ∀ x ∈ l, sqDistP c.position rc ≤ sqDistP x.position rc := by
  cases l with
  | nil => exact absurd rfl hl
  | cons c rest =>
    refine ⟨argminFold rc c rest, rfl, ?_, ?_⟩
    · rcases argminFold_choice rc rest c with h | h
      · rw [h]
        exact List.mem_cons_self c rest
      · exact List.mem_cons_of_mem c h
    · intro x hx
      rcases List.mem_cons.mp hx with rfl | hx
      · exact argminFold_le_init rc rest x
      · exact argminFold_min rc rest c x hx

theorem notEmpty_iff (l : List Cell) : (!l.isEmpty) = true ↔ l ≠ [] := by
  cases l <;> simp

theorem anyNonEmpty_iff (n : List (List Cell)) :
    anyNonEmpty n = true ↔ ∃ l ∈ n, l ≠ [] := by
  rw [anyNonEmpty, List.any_eq_true]
  constructor
  · rintro ⟨l, hl, hb⟩
    exact ⟨l, hl, (notEmpty_iff l).mp hb⟩
  · rintro ⟨l, hl, hb⟩
    exact ⟨l, hl, (notEmpty_iff l).mpr hb⟩

theorem closestSearch_finds (bins : Bins) (H W : ℤ) (row col : ℚ) (d : ℕ)
    (hne : ∃ l ∈ candAt bins H W row col d, l ≠ []) :
    ∀ (fuel d₀ : ℕ), d₀ ≤ d → d < d₀ + fuel →
    (∀ k, d₀ ≤ k → k < d → ∀ l ∈ candAt bins H W row col k, l = []) →
    closestSearch bins H W row col fuel d₀ = some (candAt bins H W row col d) := by
  intro fuel
  induction fuel with
  | zero =>
    intro d₀ h1 h2 _
    omega
  | succ fuel ih =>
    intro d₀ h1 h2 hempty
    by_cases hd : d₀ = d
    · subst hd
      rw [closestSearch, if_pos ((anyNonEmpty_iff _).mpr hne)]
    · have hlt : d₀ < d := lt_of_le_of_ne h1 hd
      have hcond : ¬ anyNonEmpty (candAt bins H W row col d₀) = true := by
        rw [anyNonEmpty_iff]
        rintro ⟨l, hl, hlne⟩
        exact hlne (hempty d₀ (le_refl _) hlt l hl)
      rw [closestSearch, if_neg hcond]
      exact ih (d₀ + 1) hlt (by omega) (fun k hk1 hk2 => hempty k (by omega) hk2)

theorem closestSearch_shape (bins : Bins) (H W : ℤ) (row col : ℚ) :
    ∀ (fuel d₀ : ℕ) (n : List (List Cell)),
      closestSearch bins H W row col fuel d₀ = some n →
      ∃ d, n = candAt bins H W row col d := by
  intro fuel
  induction fuel with
  | zero =>
    intro d₀ n hn
    exact absurd hn (by rw [closestSearch]; simp)
  | succ fuel ih =>
    intro d₀ n hn
    rw [closestSearch] at hn
    by_cases hcond : anyNonEmpty (candAt bins H W row col d₀) = true
    · rw [if_pos hcond, Option.some_inj] at hn
      exact ⟨d₀, hn.symm⟩
    · rw [if_neg hcond] at hn
      exact ih (d₀ + 1) n hn

theorem euclDistP_mono (p q : ℚ × ℚ) (rc : ℚ × ℚ) (h : sqDistP p rc ≤ sqDistP q rc) :
    euclDistP p rc ≤ euclDistP q rc := by
  rw [euclDistP, euclDistP]
  exact Real.sqrt_le_sqrt (by exact_mod_cast h)

theorem closestCell_spec (bins : Bins) (H W : ℤ) (row col : ℚ) (d fuel : ℕ)
    (hd : 1 ≤ d) (hfuel : d < 1 + fuel)
    (hempty : ∀ k, 1 ≤ k → k < d → ∀ l ∈ candAt bins H W row col k, l = [])
    (hne : ∃ l ∈ candAt bins H W row col d, l ≠ []) :
    ∃ c, closestCell bins H W row col fuel = some c ∧
      c ∈ (candAt bins H W row col d).flatten ∧
      ∀ x ∈ (candAt bins H W row col d).flatten,
        euclDistP c.position (row, col) ≤ euclDistP x.position (row, col) := by
  have hsearch := closestSearch_finds bins H W row col d hne fuel 1 hd hfuel hempty
  have hflat : (candAt bins H W row col d).flatten ≠ [] := by
    obtain ⟨l, hl, hlne⟩ := hne
    cases hL : l with
    | nil => exact absurd hL hlne
    | cons y r =>
      intro hnil
      have hy : y ∈ (candAt bins H W row col d).flatten := by
        rw [List.mem_flatten]
        exact ⟨l, hl, by rw [hL]; exact List.mem_cons_self y r⟩
      rw [hnil] at hy
      exact absurd hy (List.not_mem_nil y)
  obtain ⟨c, hmin, hcmem, hcle⟩ := argminD_spec (row, col) _ hflat
  refine ⟨c, ?_, hcmem, ?_⟩
  · rw [closestCell, hsearch]
    exact hmin
  · intro x hx
    exact euclDistP_mono _ _ _ (hcle x hx)

/-! ## The empty cell set -/

theorem closestSearch_emptyBins (H W : ℤ) (row col : ℚ) :
    ∀ (fuel d₀ : ℕ), closestSearch (fun _ => []) H W row col fuel d₀ = none := by
  intro fuel
  induction fuel with
  | zero => intro d₀; rfl
  | succ fuel ih =>
    intro d₀
    have hcond : ¬ anyNonEmpty (candAt (fun _ => []) H W row col d₀) = true := by
      rw [anyNonEmpty_iff]
      rintro ⟨l, hl, hlne⟩
      rw [candAt, List.mem_map] at hl
      obtain ⟨q, -, rfl⟩ := hl
      exact hlne rfl
    rw [closestSearch, if_neg hcond]
    exact ih (d₀ + 1)

theorem closestCell_emptyBins (H W : ℤ) (row col : ℚ) (fuel : ℕ) :
    closestCell (fun _ => []) H W row col fuel = none := by
  rw [closestCell, closestSearch_emptyBins]
  rfl

theorem populateBins_nil (H W : ℤ) : populateBins [] H W = fun _ => [] := rfl

theorem voronoiFill_empty (h w fuel : ℕ) (hh : 0 < h) (hw : 0 < w) :
    voronoiFill [] h w fuel = none := by
  obtain ⟨n, rfl⟩ : ∃ n, h = n + 1 := ⟨h - 1, by omega⟩
  obtain ⟨m, rfl⟩ : ∃ m, w = m + 1 := ⟨w - 1, by omega⟩
  rw [voronoiFill]
  have hrow : ∀ i, fillRow (populateBins [] (nbhBins (n + 1)) (nbhBins (m + 1)))
      (nbhBins (n + 1)) (nbhBins (m + 1)) i (m + 1) fuel = none := by
    intro i
    rw [fillRow, List.range_succ_eq_map, seqO, populateBins_nil, closestCell_emptyBins]
    rfl
  rw [List.range_succ_eq_map, seqO, hrow 0]

/-! ## Cells reaching the rasterizer -/

theorem binInsert_mem (bins : Bins) (q : ℤ × ℤ) (c : Cell) (p : ℤ × ℤ) (x : Cell)
    (hx : x ∈ binInsert bins q c p) : x ∈ bins p ∨ x = c := by
  simp only [binInsert] at hx
  by_cases hpq : p = q
  · rw [if_pos hpq] at hx
    subst hpq
    by_cases hc : c ∈ bins p
    · rw [if_pos hc] at hx
      exact Or.inl hx
    · rw [if_neg hc] at hx
      rcases List.mem_append.mp hx with hx' | hx'
      · exact Or.inl hx'
      · rw [List.mem_singleton] at hx'
        exact Or.inr hx'
  · rw [if_neg hpq] at hx
    exact Or.inl hx

theorem binInsertFold_mem (c : Cell) (L : List (ℤ × ℤ)) :
    ∀ (bins : Bins) (p : ℤ × ℤ) (x : Cell),
      x ∈ (L.foldl (fun b q => binInsert b q c) bins) p → x ∈ bins p ∨ x = c := by
  induction L with
  | nil => intro bins p x hx; exact Or.inl hx
  | cons q L ih =>
    intro bins p x hx
    rw [List.foldl_cons] at hx
    rcases ih (binInsert bins q c) p x hx with hx' | hx'
    · exact binInsert_mem bins q c p x hx'
    · exact Or.inr hx'

theorem populateBins_subset (cells : List Cell) (H W : ℤ) (p : ℤ × ℤ) (x : Cell)
    (hx : x ∈ populateBins cells H W p) : x ∈ cells := by
  suffices hgen : ∀ (cs : List Cell) (bins₀ : Bins),
      (∀ q y, y ∈ bins₀ q → y ∈ cells) → (∀ c ∈ cs, c ∈ cells) →
      ∀ q y, y ∈ (cs.foldl (registerCell H W) bins₀) q → y ∈ cells by
    exact hgen cells (fun _ => []) (fun q y hy => absurd hy (List.not_mem_nil y))
      (fun c hc => hc) p x hx
  intro cs
  induction cs with
  | nil => intro bins₀ h0 _ q y hy; exact h0 q y hy
  | cons c cs ih =>
    intro bins₀ h0 hcs q y hy
    rw [List.foldl_cons] at hy
    refine ih (registerCell H W bins₀ c) ?_ (fun z hz => hcs z (List.mem_cons_of_mem c hz))
      q y hy
    intro q' y' hy'
    rcases binInsertFold_mem c _ bins₀ q' y' hy' with hy'' | rfl
    · exact h0 q' y' hy''
    · exact hcs y' (List.mem_cons_self y' cs)

theorem closestCell_mem_cells (cells : List Cell) (H W : ℤ) (row col : ℚ) (fuel : ℕ)
    (c : Cell) (hc : closestCell (populateBins cells H W) H W row col fuel = some c) :
    c ∈ cells := by
  rw [closestCell] at hc
  cases hsearch : closestSearch (populateBins cells H W) H W row col fuel 1 with
  | none =>
    rw [hsearch] at hc
    exact absurd hc (by simp)
  | some n =>
    rw [hsearch] at hc
    have hc' : argminD (row, col) n.flatten = some c := hc
    obtain ⟨d, rfl⟩ := closestSearch_shape _ _ _ _ _ _ _ _ hsearch
    have hcn : c ∈ (candAt (populateBins cells H W) H W row col d).flatten := by
      cases hF : (candAt (populateBins cells H W) H W row col d).flatten with
      | nil =>
        rw [hF] at hc'
        exact absurd hc' (by rw [argminD]; simp)
      | cons y r =>
        rw [hF, argminD, Option.some_inj] at hc'
        rw [← hc']
        rcases argminFold_choice (row, col) r y with h | h
        · rw [h]
          exact List.mem_cons_self y r
        · exact List.mem_cons_of_mem y h
    rw [List.mem_flatten] at hcn
    obtain ⟨l, hl, hcl⟩ := hcn
    rw [candAt, List.mem_map] at hl
    obtain ⟨q, -, rfl⟩ := hl
    exact populateBins_subset cells H W q c hcl

theorem mem_gatherCells (l : List (Cell × Cell)) (c : Cell) :
    c ∈ gatherCells l ↔ ∃ e ∈ l, c = e.1 ∨ c = e.2 := by
  suffices hgen : ∀ (acc : List Cell),
      c ∈ l.foldl (fun acc e => addIfAbsent e.2 (addIfAbsent e.1 acc)) acc ↔
      c ∈ acc ∨ ∃ e ∈ l, c = e.1 ∨ c = e.2 by
    rw [gatherCells, hgen]
    simp
  induction l with
  | nil => intro acc; simp
  | cons e rest ih =>
    intro acc
    rw [List.foldl_cons, ih]
    rw [mem_addIfAbsent, mem_addIfAbsent]
    constructor
    · rintro (((hc | rfl) | rfl) | ⟨f, hf, hor⟩)
      · exact Or.inl hc
      · exact Or.inr ⟨e, List.mem_cons_self e rest, Or.inl rfl⟩
      · exact Or.inr ⟨e, List.mem_cons_self e rest, Or.inr rfl⟩
      · exact Or.inr ⟨f, List.mem_cons_of_mem e hf, hor⟩
    · rintro (hc | ⟨f, hf, hor⟩)
      · exact Or.inl (Or.inl (Or.inl hc))
      · rcases List.mem_cons.mp hf with rfl | hf
        · rcases hor with rfl | rfl
          · exact Or.inl (Or.inl (Or.inr rfl))
          · exact Or.inl (Or.inr rfl)
        · exact Or.inr ⟨f, hf, hor⟩

/-! ## The claims -/

/-- The initial 2×2 grid state satisfies the graph invariant. -/
theorem WF_gridSt : WF gridSt :=
  ⟨by decide, by decide, by decide, by decide, by decide, by decide, by decide,
   by decide, by decide, by decide, by decide, by decide⟩

/-- The two-edge score fixture satisfies the graph invariant. -/
theorem WF_scoreSt : WF scoreSt :=
  ⟨by decide, by decide, by decide, by decide, by decide, by decide, by decide,
   by decide, by decide, by decide, by decide, by decide⟩

/-- The 1×2 grid state satisfies the graph invariant. -/
theorem WF_lineSt : WF lineSt :=
  ⟨by decide, by decide, by decide, by decide, by decide, by decide, by decide,
   by decide, by decide, by decide, by decide, by decide⟩

/-- Claim C1, counterexample.  The scheduler key of `Cell.edge_set` is the
colour distance scaled by the sum of the endpoint weights, not the raw
colour distance: on a state holding the edge {cA, cB} (colour distance 10,
weight sum 2, key 20) and the edge {cC, cD} (colour distance 3, weight sum
10, key 30), `least_difference_edge` returns {cA, cB} even though {cC, cD}
has the strictly smaller colour distance; and the key of {cA, cB} differs
from its colour distance. -/
theorem C1_counterexample :
    leastDifferenceEdge scoreSt = some (cA, cB) ∧
    mkE cC cD ∈ scoreSt.edgeList ∧
    compareColours cC cD < compareColours cA cB ∧
    edgeScore (cA, cB) ≠ compareColours cA cB := by
  have hAB : compareColours cA cB = 10 := by
    rw [compareColours, show sqNormDiff cA.colour cB.colour = (100 : ℚ) from by decide,
      show (((100 : ℚ) : ℝ)) = 10 ^ 2 from by norm_num]
    exact Real.sqrt_sq (by norm_num)
  have hCD : compareColours cC cD = 3 := by
    rw [compareColours, show sqNormDiff cC.colour cD.colour = (9 : ℚ) from by decide,
      show (((9 : ℚ) : ℝ)) = 3 ^ 2 from by norm_num]
    exact Real.sqrt_sq (by norm_num)
  refine ⟨by decide, by decide, ?_, ?_⟩
  · rw [hAB, hCD]; norm_num
  · have hsc : edgeScore (cA, cB) = ((cA.weight + cB.weight : ℕ) : ℝ) * compareColours cA cB :=
      rfl
    rw [hsc, hAB, show ((cA.weight + cB.weight : ℕ) : ℝ) = 2 from by norm_num [cA, cB]]
    norm_num

/-- Claim C1, amended.  `least_difference_edge` returns an edge minimising
the weighted similarity score `(a.weight + b.weight) * compare_colours(a, b)`
(the `SortedSet` key of `Cell.edge_set`) over all current edges; the raw
colour distance is not the quantity being minimised. -/
theorem C1_amended_least_edge_min_weighted_score (s : St) (h : WF s)
    (e : Cell × Cell) (he : leastDifferenceEdge s = some e) :
    ∀ f ∈ s.edgeList, edgeScore e ≤ edgeScore f :=
  fun f hf => edgeScore_mono e f (leastDifferenceEdge_minKey s h e he f hf)

/-- Claim C1, witness: on the two-edge score fixture the selected edge
{cA, cB} has minimal weighted score. -/
theorem C1_witness :
    WF scoreSt ∧ leastDifferenceEdge scoreSt = some (cA, cB) ∧
    ∀ f ∈ scoreSt.edgeList, edgeScore (cA, cB) ≤ edgeScore f :=
  ⟨WF_scoreSt, by decide,
   C1_amended_least_edge_min_weighted_score scoreSt WF_scoreSt (cA, cB) (by decide)⟩

/-- Claim C2.  The spec requires removing a non-existent edge during a merge
to be a recoverable no-op, but `Cell.merge_cells` only catches `ValueError`
while `SortedSet.remove` raises `KeyError` on a missing element: merging two
non-adjacent cells raises an uncaught `KeyError`. -/
theorem C2_merge_nonadjacent_raises (s : St) (a b : Cell)
    (hab : mkE a b ∉ s.edgeList) :
    mergeCells a b s = .error .keyError := by
  have h1 : removeEdgeE a b s = .error .keyError := by
    rw [removeEdgeE, if_neg hab]
  rw [mergeCells, h1]

/-- Claim C2, witness: merging the non-adjacent cells cA and cB on the empty
state raises `KeyError`. -/
theorem C2_witness :
    mkE cA cB ∉ emptySt.edgeList ∧ mergeCells cA cB emptySt = .error .keyError :=
  ⟨by decide, C2_merge_nonadjacent_raises emptySt cA cB (by decide)⟩

/-- Claim C3, counterexample.  `compress` hardcodes
`n_edges = original_n_edges // 2`: there is no configurable ratio, so a run
with a purported ratio of 1.0 (zero merges) is impossible.  On the 2×2
uniform image the grid has 4 edges, the target is fixed at 2, and the
contraction performs merges (ending at 1 edge) rather than leaving the
graph unchanged. -/
theorem C3_counterexample :
    gridSt.edgeList.length = 4 ∧
    contractTarget gridSt.edgeList.length = 2 ∧
    contractTarget gridSt.edgeList.length ≠ gridSt.edgeList.length ∧
    (runContract gridSt).toOption = some (some afterRun1) ∧
    afterRun1.edgeList.length = 1 :=
  ⟨by decide, by decide, by decide, by decide, by decide⟩

/-- Claim C3, amended.  Contraction proceeds while
`current_edge_count > target_edge_count` with the target hardcoded to
`original_n_edges // 2` (integer division, no configuration parameter): the
loop terminates with at most `original_n_edges // 2` edges left, and when
the graph starts with no edges it is left unchanged. -/
theorem C3_amended_contract_to_half (s : St) (h : WF s) :
    ∃ s', runContract s = .ok (some s') ∧
      s'.edgeList.length ≤ s.edgeList.length / 2 ∧
      (s.edgeList.length = 0 → s' = s) := by
  obtain ⟨s', hrun, -, hlen, -, hid⟩ :=
    contractLoop_ok (contractTarget s.edgeList.length) s.edgeList.length s h le_rfl
  exact ⟨s', hrun, hlen, fun h0 => hid (by omega)⟩

/-- Claim C3, witness: the contraction run on the 2×2 uniform grid reaches
at most half the original edge count. -/
theorem C3_witness :
    ∃ s', runContract gridSt = .ok (some s') ∧
      s'.edgeList.length ≤ gridSt.edgeList.length / 2 ∧
      (gridSt.edgeList.length = 0 → s' = gridSt) :=
  C3_amended_contract_to_half gridSt WF_gridSt

/-- Claim C4.  Merging two adjacent cells returns a new cell whose colour and
position are the weight-weighted averages of the parents', whose weight is
the sum of the parents' weights, and whose neighbour set is
(N(a) ∪ N(b)) \ \x7ba, b\x7d; afterwards no surviving edge is incident to either
parent and neither parent remains a live cell. -/
theorem C4_merge_adjacent_correct (s : St) (a b : Cell) (h : WF s)
    (hab : mkE a b ∈ s.edgeList) :
    ∃ s', mergeCells a b s = .ok (mergedCell a b s, s') ∧
      (mergedCell a b s).colour = wavg a.colour b.colour a.weight b.weight ∧
      (mergedCell a b s).position = wavgP a.position b.position a.weight b.weight ∧
      (mergedCell a b s).weight = a.weight + b.weight ∧
      (∀ y, y ∈ lookupNb s'.nbrA (mergedCell a b s) ↔
        ((y ∈ lookupNb s.nbrA a ∨ y ∈ lookupNb s.nbrA b) ∧ y ≠ a ∧ y ≠ b)) ∧
      (∀ f ∈ s'.edgeList, f.1 ≠ a ∧ f.2 ≠ a ∧ f.1 ≠ b ∧ f.2 ≠ b) ∧
      a ∉ s'.cells ∧ b ∉ s'.cells := by
  obtain ⟨s', hrun, -, -, -, -, -, hnbc, hinc, hnA, hnB⟩ := mergeCells_ok s a b h hab
  exact ⟨s', hrun, rfl, rfl, rfl, hnbc, hinc, hnA, hnB⟩

/-- Claim C4, witness: merging the two adjacent cells of the 1×2 uniform
grid. -/
theorem C4_witness :
    mkE gA gB ∈ lineSt.edgeList ∧
    ∃ s', mergeCells gA gB lineSt = .ok (mergedCell gA gB lineSt, s') ∧
      (mergedCell gA gB lineSt).colour = wavg gA.colour gB.colour gA.weight gB.weight ∧
      (mergedCell gA gB lineSt).position =
        wavgP gA.position gB.position gA.weight gB.weight ∧
      (mergedCell gA gB lineSt).weight = gA.weight + gB.weight ∧
      (∀ y, y ∈ lookupNb s'.nbrA (mergedCell gA gB lineSt) ↔
        ((y ∈ lookupNb lineSt.nbrA gA ∨ y ∈ lookupNb lineSt.nbrA gB) ∧ y ≠ gA ∧ y ≠ gB)) ∧
      (∀ f ∈ s'.edgeList, f.1 ≠ gA ∧ f.2 ≠ gA ∧ f.1 ≠ gB ∧ f.2 ≠ gB) ∧
      gA ∉ s'.cells ∧ gB ∉ s'.cells :=
  ⟨by decide, C4_merge_adjacent_correct lineSt gA gB WF_lineSt (by decide)⟩

/-- Claim C5.  Every merge of an edge taken from the edge set strictly
decreases the live edge count by at least 1, and the contraction loop
terminates within `initial_edge_count` iterations with the edge count at or
below the target. -/
theorem C5_merge_decreases_and_loop_terminates :
    (∀ s : St, WF s → s.edgeList ≠ [] →
      ∃ s', mergeStepE s = .ok s' ∧ s'.edgeList.length + 1 ≤ s.edgeList.length) ∧
    (∀ (s : St) (tgt : ℕ), WF s →
      ∃ s', contractLoop tgt s.edgeList.length s = .ok (some s') ∧
        s'.edgeList.length ≤ tgt) := by
  constructor
  · intro s h hne
    obtain ⟨s', hrun, -, hlen, -⟩ := mergeStepE_ok s h hne
    exact ⟨s', hrun, hlen⟩
  · intro s tgt h
    obtain ⟨s', hrun, -, hlen, -, -⟩ := contractLoop_ok tgt s.edgeList.length s h le_rfl
    exact ⟨s', hrun, hlen⟩

/-- Claim C5, witness: one merge step on the 2×2 uniform grid drops the edge
count, and the loop with target 2 and fuel 4 finishes at or below 2 edges. -/
theorem C5_witness :
    (∃ s', mergeStepE gridSt = .ok s' ∧
      s'.edgeList.length + 1 ≤ gridSt.edgeList.length) ∧
    (∃ s', contractLoop 2 gridSt.edgeList.length gridSt = .ok (some s') ∧
      s'.edgeList.length ≤ 2) :=
  ⟨C5_merge_decreases_and_loop_terminates.1 gridSt WF_gridSt (by decide),
   C5_merge_decreases_and_loop_terminates.2 gridSt 2 WF_gridSt⟩

/-- Claim C6.  Building the initial grid adds one weight-1 cell per pixel
(total h·w from a fresh state), every merge step conserves the total cell
weight, and the whole contraction loop conserves it; so the total weight
stays equal to the pixel count through contraction. -/
theorem C6_weight_conservation :
    (∀ (h w : ℕ) (img : ℕ → ℕ → List ℚ) (s : St),
      weightSum (imageCellGrid h w img s) = weightSum s + h * w) ∧
    (∀ (h w : ℕ) (img : ℕ → ℕ → List ℚ),
      weightSum (imageCellGrid h w img emptySt) = h * w) ∧
    (∀ s : St, WF s → s.edgeList ≠ [] →
      ∃ s', mergeStepE s = .ok s' ∧ weightSum s' = weightSum s) ∧
    (∀ (s : St) (tgt fuel : ℕ), WF s → s.edgeList.length ≤ fuel →
      ∃ s', contractLoop tgt fuel s = .ok (some s') ∧
        weightSum s' = weightSum s) := by
  refine ⟨imageCellGrid_weightSum, ?_, ?_, ?_⟩
  · intro h w img
    rw [imageCellGrid_weightSum]
    exact Nat.zero_add _
  · intro s h hne
    obtain ⟨s', hrun, -, -, hws⟩ := mergeStepE_ok s h hne
    exact ⟨s', hrun, hws⟩
  · intro s tgt fuel h hle
    obtain ⟨s', hrun, -, -, hws, -⟩ := contractLoop_ok tgt fuel s h hle
    exact ⟨s', hrun, hws⟩

/-- Claim C6, witness: on the 2×2 uniform image the grid weighs 4 = 2·2 and
both a single merge step and the full loop keep the total weight. -/
theorem C6_witness :
    weightSum (imageCellGrid 2 2 uniImg emptySt) = 2 * 2 ∧
    (∃ s', mergeStepE gridSt = .ok s' ∧ weightSum s' = weightSum gridSt) ∧
    (∃ s', contractLoop 2 4 gridSt = .ok (some s') ∧
      weightSum s' = weightSum gridSt) :=
  ⟨C6_weight_conservation.2.1 2 2 uniImg,
   C6_weight_conservation.2.2.1 gridSt WF_gridSt (by decide),
   C6_weight_conservation.2.2.2 gridSt 2 4 WF_gridSt (by decide)⟩

/-- Claim C7.  `closest_cell` examines the degree-1 bin ring of the query
point first, expands to degrees 2, 3, … only while every examined bin is
empty, and returns from the first non-empty ring a cell minimising the
Euclidean distance to the query point over all candidates of that ring. -/
theorem C7_closest_cell_ring_search (bins : Bins) (H W : ℤ) (row col : ℚ)
    (d fuel : ℕ) (hd : 1 ≤ d) (hfuel : d < 1 + fuel)
    (hempty : ∀ k, 1 ≤ k → k < d → ∀ l ∈ candAt bins H W row col k, l = [])
    (hne : ∃ l ∈ candAt bins H W row col d, l ≠ []) :
    ∃ c, closestCell bins H W row col fuel = some c ∧
      c ∈ (candAt bins H W row col d).flatten ∧
      ∀ x ∈ (candAt bins H W row col d).flatten,
        euclDistP c.position (row, col) ≤ euclDistP x.position (row, col) :=
  closestCell_spec bins H W row col d fuel hd hfuel hempty hne

/-- Claim C7, witness: the query (7, 7) against a population holding one
cell in bin (1, 0), the only in-bounds bin of its degree-1 ring. -/
theorem C7_witness :
    ∃ c, closestCell wBins 3 3 7 7 1 = some c ∧
      c ∈ (candAt wBins 3 3 7 7 1).flatten ∧
      ∀ x ∈ (candAt wBins 3 3 7 7 1).flatten,
        euclDistP c.position (7, 7) ≤ euclDistP x.position (7, 7) :=
  C7_closest_cell_ring_search wBins 3 3 7 7 1 1 (by decide) (by decide)
    (fun k hk1 hk2 => absurd (lt_of_le_of_lt hk1 hk2) (lt_irrefl 1))
    ⟨[wCell], by decide, by decide⟩

/-- Claim C8.  The spec requires an empty cell set reaching the rasterizer to
abort the run, but `closest_cell` has no such check: with no registered cell
every ring is empty, `while not any(neighborhood)` never exits, and
`voronoi_fill` never produces an output (modelled by `none` at every fuel
bound) instead of raising. -/
theorem C8_empty_cells_diverges :
    (∀ (H W : ℤ) (row col : ℚ) (fuel : ℕ),
      closestCell (populateBins [] H W) H W row col fuel = none) ∧
    (∀ h w fuel : ℕ, 0 < h → 0 < w → voronoiFill [] h w fuel = none) := by
  constructor
  · intro H W row col fuel
    rw [populateBins_nil]
    exact closestCell_emptyBins H W row col fuel
  · intro h w fuel hh hw
    exact voronoiFill_empty h w fuel hh hw

/-- Claim C8, witness: a 1×1 image with no cells never rasterizes. -/
theorem C8_witness :
    closestCell (populateBins [] 0 0) 0 0 0 0 5 = none ∧
    voronoiFill [] 1 1 5 = none :=
  ⟨C8_empty_cells_diverges.1 0 0 0 0 5,
   C8_empty_cells_diverges.2 1 1 5 (by decide) (by decide)⟩

/-- Claim C9, counterexample.  `Cell.edge_set` is a class attribute that is
never cleared: after a first compress run on the 2×2 uniform image leaves
one surviving edge, a second run on the same image starts
`image_cell_grid` on the polluted state and observes 5 initial edges
(including the stale surviving edge) where the first run observed 4 — the
two invocations do not see the same initial state. -/
theorem C9_counterexample :
    gridSt.edgeList.length = 4 ∧
    afterRun1.edgeList = [survEdge] ∧
    (imageCellGrid 2 2 uniImg afterRun1).edgeList.length = 5 ∧
    survEdge ∈ (imageCellGrid 2 2 uniImg afterRun1).edgeList :=
  ⟨by decide, by decide, by decide, by decide⟩

/-- Claim C9, amended.  The module-level edge registry persists across
invocations: every edge present when `image_cell_grid` starts is still
present afterwards, so a second compress in the same process observes the
residue of the first run rather than a fresh initial state. -/
theorem C9_amended_registry_persists (h w : ℕ) (img : ℕ → ℕ → List ℚ)
    (s : St) (e : Cell × Cell) (he : e ∈ s.edgeList) :
    e ∈ (imageCellGrid h w img s).edgeList :=
  imageCellGrid_edge_mono h w img s e he

/-- Claim C9, witness: the edge surviving the first run is still present in
the second run's initial grid. -/
theorem C9_witness :
    survEdge ∈ afterRun1.edgeList ∧
    survEdge ∈ (imageCellGrid 2 2 uniImg afterRun1).edgeList :=
  ⟨by decide, C9_amended_registry_persists 2 2 uniImg afterRun1 survEdge (by decide)⟩

/-- Claim C10.  The vertex set handed to the rasterizer is exactly the set of
endpoints of the surviving edges: membership in the gathered set is
equivalent to being an endpoint, a cell that is no edge's endpoint is
excluded, and every cell the rasterizer ever selects for a pixel comes from
the list it was handed. -/
theorem C10_gathered_cells_exact :
    (∀ (l : List (Cell × Cell)) (c : Cell),
      c ∈ gatherCells l ↔ ∃ e ∈ l, c = e.1 ∨ c = e.2) ∧
    (∀ (l : List (Cell × Cell)) (c : Cell),
      (∀ e ∈ l, c ≠ e.1 ∧ c ≠ e.2) → c ∉ gatherCells l) ∧
    (∀ (cells : List Cell) (H W : ℤ) (row col : ℚ) (fuel : ℕ) (c : Cell),
      closestCell (populateBins cells H W) H W row col fuel = some c →
      c ∈ cells) := by
  refine ⟨mem_gatherCells, ?_, closestCell_mem_cells⟩
  intro l c hexc hmem
  obtain ⟨e, he, hor⟩ := (mem_gatherCells l c).mp hmem
  rcases hor with rfl | rfl
  · exact (hexc e he).1 rfl
  · exact (hexc e he).2 rfl

/-- Claim C10, witness: cA is gathered from the edge (cA, cB), cC (incident
to no edge) is excluded, and a pixel of the one-cell population selects a
cell of the handed list. -/
theorem C10_witness :
    (cA ∈ gatherCells [(cA, cB)] ↔ ∃ e ∈ [(cA, cB)], cA = e.1 ∨ cA = e.2) ∧
    cC ∉ gatherCells [(cA, cB)] ∧
    wCell ∈ [wCell] :=
  ⟨C10_gathered_cells_exact.1 [(cA, cB)] cA,
   C10_gathered_cells_exact.2.1 [(cA, cB)] cC (by decide),
   C10_gathered_cells_exact.2.2 [wCell] 3 3 7 7 1 wCell (by decide)⟩
